import Mathlib

/-!
# Rug-pull detector: a shallow embedding of `rug_pull_detector.cpp` and of the
# queues of `TradeProcessor` in `main.cpp`

Conventions of the embedding.

* A `std::chrono::system_clock::time_point` is an integer count of clock ticks
  since the epoch; `ticksPerSecond` is the clock resolution (nanoseconds).
  `duration_cast<seconds>` truncates toward zero (`durationSeconds`).
* A `double` is an exact rational number: rounding and infinities are not
  modelled.  The one irrational value of the program, the result of
  `std::pow(strength_base, 1.0 / 3.0)`, is kept exactly as a `CubeRoot`, i.e.
  by the number under the root.
* `static_cast<int>` of a 64-bit count wraps modulo `2 ^ 32` (`toInt32`).
* The detector object is an explicit state record; `processTrades` returns the
  result together with the updated state and the number of windows it
  computed.
* The dispatcher is its queue state; `addTask` and one worker iteration are
  functions on it, taken one at a time (no thread interleaving).
-/

namespace RugPull

/-! ## Data model -/

/-- Trade record of `trade.hpp`. -/
structure Trade where
  timestamp : Int
  market_cap_sol : ℚ
  sol_amount : ℚ
  deriving DecidableEq, Repr

/-- Thresholds of `detection_config.hpp`, with their values as defaults. -/
structure DetectionConfig where
  peak_drop_threshold : ℚ := 100 / 1000
  time_from_peak_threshold : Int := 105
  volume_spike_threshold : ℚ := 1244 / 1000
  min_confidence_score : ℚ := 672 / 1000
  early_warning_threshold : ℚ := 50 / 1000
  consecutive_drops_threshold : Int := 2
  price_velocity_threshold : ℚ := 12 / 1000
  pattern_strength_threshold : ℚ := 457 / 1000
  short_window : Int := 1
  stop_loss_threshold : ℚ := 40 / 100
  deriving DecidableEq, Repr

/-- The configuration every caller passes: `DetectionConfig config;`. -/
def defaultConfig : DetectionConfig := {}

/-- Constant `DetectionConfig::max_detection_time`, read statically by
`getRecentTrades`. -/
def max_detection_time : Int := 60

/-- Resolution of `std::chrono::system_clock`: ticks per second. -/
def ticksPerSecond : Int := 1000000000

/-- Operation `duration_cast<seconds>(d).count()`: whole seconds, truncated
toward zero. -/
def durationSeconds (d : Int) : Int := Int.tdiv d ticksPerSecond

/-- Conversion `static_cast<int>` of a 64-bit integer: two's complement
wrap-around to 32 bits. -/
def toInt32 (x : Int) : Int := (x + 2147483648) % 4294967296 - 2147483648

/-- The double `std::pow(radicand, 1.0 / 3.0)`, kept exactly by its radicand. -/
structure CubeRoot where
  radicand : ℚ
  deriving DecidableEq, Repr

/-- Comparison `r >= t` of a cube root with a rational threshold.  Cubing is
strictly increasing, so the root is at least `t` exactly when the radicand is at
least `t ^ 3`; `std::pow` of a negative base is NaN, which compares false. -/
def CubeRoot.ge (r : CubeRoot) (t : ℚ) : Bool :=
  decide (0 ≤ r.radicand ∧ t ^ 3 ≤ r.radicand)

/-- Private struct `RugPullDetector::WindowStats`; the defaults are its
constructor. -/
structure WindowStats where
  volume_trend : ℚ := 0
  price_velocity : ℚ := 0
  consecutive_drops : Int := 0
  pattern_strength : CubeRoot := ⟨0⟩
  deriving DecidableEq, Repr

/-- Nested struct `DetectionResult::DebugInfo`. -/
structure DebugInfo where
  trigger_type : String := ""
  confidence : ℚ := 1
  drop_percentage : ℚ := 0
  peak_market_cap : ℚ := 0
  current_market_cap : ℚ := 0
  deriving DecidableEq, Repr

/-- Struct `DetectionResult` of `detection_result.hpp`. -/
structure DetectionResult where
  rug_pulled : Bool := false
  timestamp : Option Int := none
  debug_info : DebugInfo := {}
  deriving DecidableEq, Repr

/-- Data members of class `RugPullDetector` (the mutex apart). -/
structure RugPullDetector where
  trades_ : List Trade
  peak_mc_ : ℚ
  peak_time_ : Int
  analysis_start_time_ : Int
  current_idx_ : Nat
  deriving DecidableEq, Repr

/-- Constructor `RugPullDetector()`; `now` is the value of
`std::chrono::system_clock::now()` at construction. -/
def RugPullDetector.new (now : Int) : RugPullDetector :=
  { trades_ := [], peak_mc_ := 0, peak_time_ := now, analysis_start_time_ := now,
    current_idx_ := 0 }

/-! ## `addTrade` -/

/-- Method `RugPullDetector::addTrade`. -/
def addTrade (d : RugPullDetector) (trade : Trade) : RugPullDetector :=
  let d1 := if d.trades_.isEmpty then { d with analysis_start_time_ := trade.timestamp } else d
  let d2 := if trade.market_cap_sol > d1.peak_mc_ then
      { d1 with peak_mc_ := trade.market_cap_sol, peak_time_ := trade.timestamp }
    else d1
  { d2 with trades_ := d2.trades_ ++ [trade] }

/-- The loop of `processRedisKey`: every fetched trade is added in order. -/
def addTrades (d : RugPullDetector) (trades : List Trade) : RugPullDetector :=
  trades.foldl addTrade d

/-! ## `getRecentTrades` -/

/-- Timestamp of `trades_[i]`; the searches only read indices inside the log. -/
def timestampAt (trades : List Trade) (i : Nat) : Int :=
  match trades[i]? with
  | some t => t.timestamp
  | none => 0

/-- Loop of `std::lower_bound` with the comparator `trade.timestamp < time`:
`len` halves until it is zero. -/
def lowerBoundLoop (trades : List Trade) (time : Int) : Nat → Nat → Nat → Nat
  | 0, first, _ => first
  | fuel + 1, first, len =>
    if 0 < len then
      let half := len / 2
      let middle := first + half
      if timestampAt trades middle < time then
        lowerBoundLoop trades time fuel (middle + 1) (len - half - 1)
      else
        lowerBoundLoop trades time fuel first half
    else first

/-- Call `std::lower_bound(first, last, time, comp)` on iterators given as
indices; the loop runs at most `last - first` times. -/
def lower_bound (trades : List Trade) (first last : Nat) (time : Int) : Nat :=
  lowerBoundLoop trades time (last - first) first (last - first)

/-- Loop of `std::upper_bound` with the comparator `time < trade.timestamp`. -/
def upperBoundLoop (trades : List Trade) (time : Int) : Nat → Nat → Nat → Nat
  | 0, first, _ => first
  | fuel + 1, first, len =>
    if 0 < len then
      let half := len / 2
      let middle := first + half
      if time < timestampAt trades middle then
        upperBoundLoop trades time fuel first half
      else
        upperBoundLoop trades time fuel (middle + 1) (len - half - 1)
    else first

/-- Call `std::upper_bound(first, last, time, comp)` on indices. -/
def upper_bound (trades : List Trade) (first last : Nat) (time : Int) : Nat :=
  upperBoundLoop trades time (last - first) first (last - first)

/-- The local `window_size` of `getRecentTrades`, in seconds. -/
def window_size (analysis_start_time current_time : Int) : Int :=
  let elapsed_seconds := durationSeconds (current_time - analysis_start_time)
  min (max 10 (toInt32 elapsed_seconds)) max_detection_time

/-- The iterators `start_it` and `end_it` of `getRecentTrades`, as indices. -/
def windowBounds (d : RugPullDetector) (current_time : Int) : Nat × Nat :=
  let window_start := current_time - window_size d.analysis_start_time_ current_time * ticksPerSecond
  let start_it := lower_bound d.trades_ 0 d.trades_.length window_start
  let end_it := upper_bound d.trades_ start_it d.trades_.length current_time
  (start_it, end_it)

/-- Method `RugPullDetector::getRecentTrades`: the span `[start_it, end_it)`. -/
def getRecentTrades (d : RugPullDetector) (current_time : Int) : List Trade :=
  let b := windowBounds d current_time
  (d.trades_.drop b.1).take (b.2 - b.1)

/-! ## `computeWindowStats` -/

/-- Vector `price_changes_` after the loop: `w[i].market_cap_sol - w[i-1].market_cap_sol`. -/
def priceChanges : List Trade → List ℚ
  | a :: b :: rest => (b.market_cap_sol - a.market_cap_sol) :: priceChanges (b :: rest)
  | _ => []

/-- Vector `volume_changes_` after the loop: `|w[i].sol_amount - w[i-1].sol_amount|`. -/
def volumeChanges : List Trade → List ℚ
  | a :: b :: rest => |b.sol_amount - a.sol_amount| :: volumeChanges (b :: rest)
  | _ => []

/-- The `std::count_if` over `[rbegin, min(rbegin + 3, rend))`. -/
def countRecentDrops (price_changes : List ℚ) : Nat :=
  (price_changes.reverse.take 3).countP (fun change => decide (change < 0))

/-- Mean by `std::reduce(...) / size`, guarded by `!empty()`. -/
def meanOrZero (xs : List ℚ) : ℚ :=
  if xs.isEmpty then 0 else xs.sum / (xs.length : ℚ)

/-- The local `strength_base` of `computeWindowStats`. -/
def strengthBase (consecutive_drops : Int) (size : Nat) (volume_trend price_velocity : ℚ) : ℚ :=
  ((consecutive_drops : ℚ) / (size : ℚ)) * (1 + min volume_trend 2) * (1 + |price_velocity|)

/-- Method `RugPullDetector::computeWindowStats`. -/
def computeWindowStats (window_trades : List Trade) : WindowStats :=
  if window_trades.length ≤ 1 then {}
  else
    let price_changes := priceChanges window_trades
    let volume_changes := volumeChanges window_trades
    let consecutive_drops : Int := (countRecentDrops price_changes : Nat)
    let volume_trend := meanOrZero volume_changes
    let price_velocity := meanOrZero price_changes
    { volume_trend := volume_trend
      price_velocity := price_velocity
      consecutive_drops := consecutive_drops
      pattern_strength :=
        ⟨strengthBase consecutive_drops window_trades.length volume_trend price_velocity⟩ }

/-! ## `calculateConfidence` -/

/-- Conversion `static_cast<double>(b)` of a comparison result. -/
def indicator (b : Bool) : ℚ := if b then 1 else 0

/-- Method `RugPullDetector::calculateConfidence`. -/
def calculateConfidence (drop time_diff : ℚ) (pattern : CubeRoot) (volume : ℚ)
    (config : DetectionConfig) : ℚ :=
  let price_conf := indicator (decide (drop ≥ config.peak_drop_threshold))
  let time_conf := max 0 (1 - time_diff / (config.time_from_peak_threshold : ℚ))
  let pattern_conf := indicator (pattern.ge config.pattern_strength_threshold)
  let volume_conf := indicator (decide (volume ≥ config.volume_spike_threshold))
  (4 / 10) * price_conf * time_conf + (3 / 10) * pattern_conf + (3 / 10) * volume_conf

/-! ## `buildResult` and `processTrades` -/

/-- Method `RugPullDetector::buildResult`; `confidence` is the optional
`"confidence"` entry of the metrics map, the other three are always present. -/
def buildResult (detected : Bool) (timestamp : Int) (trigger : String)
    (confidence : Option ℚ) (drop_pct peak_mc current_mc : ℚ) : DetectionResult :=
  { rug_pulled := detected
    timestamp := some timestamp
    debug_info :=
      { trigger_type := trigger
        confidence := match confidence with
          | some c => c
          | none => 1
        drop_percentage := drop_pct
        peak_market_cap := peak_mc
        current_market_cap := current_mc } }

/-- What `processTrades` leaves behind: the returned result, the detector
afterwards, and how many times `getRecentTrades` was called. -/
structure ScanOutcome where
  result : DetectionResult
  detector : RugPullDetector
  window_calls : Nat
  deriving DecidableEq, Repr

/-- The local `current_drop` of `processTrades`. -/
def currentDrop (peak_mc market_cap : ℚ) : ℚ :=
  if peak_mc > 0 then (peak_mc - market_cap) / peak_mc else 0

/-- Body of the `while` loop of `processTrades` for the trade at the cursor:
`some r` when the body returns `r`, `none` when it ends in `++current_idx_`
(also through `continue`). -/
def scanStep (config : DetectionConfig) (d : RugPullDetector) (current_trade : Trade) :
    Option DetectionResult :=
  let window_trades := getRecentTrades d current_trade.timestamp
  if window_trades.isEmpty then none
  else
    let time_since_peak := durationSeconds (current_trade.timestamp - d.peak_time_)
    let current_drop := currentDrop d.peak_mc_ current_trade.market_cap_sol
    if current_drop ≥ config.stop_loss_threshold then
      some (buildResult true current_trade.timestamp "stop_loss" none (current_drop * 100)
        d.peak_mc_ current_trade.market_cap_sol)
    else if window_trades.length > 1 then
      let stats := computeWindowStats window_trades
      if time_since_peak ≥ 5 then
        let confidence_score := calculateConfidence current_drop (time_since_peak : ℚ)
          stats.pattern_strength stats.volume_trend config
        if confidence_score ≥ config.min_confidence_score then
          some (buildResult true current_trade.timestamp "pattern" (some confidence_score)
            (current_drop * 100) d.peak_mc_ current_trade.market_cap_sol)
        else none
      else none
    else none

/-- The `while (current_idx_ < trades_.size())` loop of `processTrades`; every
iteration either returns or increments `current_idx_`, so
`trades_.size() - current_idx_` iterations exhaust it.  Each iteration calls
`getRecentTrades` once, which `calls` counts.  Nothing in the body throws, so
the `catch` clause is never entered. -/
def processLoop (config : DetectionConfig) : Nat → RugPullDetector → Nat → ScanOutcome
  | 0, d, calls => ⟨{}, d, calls⟩
  | fuel + 1, d, calls =>
    if h : d.current_idx_ < d.trades_.length then
      match scanStep config d d.trades_[d.current_idx_] with
      | some r => ⟨r, d, calls + 1⟩
      | none => processLoop config fuel { d with current_idx_ := d.current_idx_ + 1 } (calls + 1)
    else ⟨{}, d, calls⟩

/-- Method `RugPullDetector::processTrades`. -/
def processTrades (config : DetectionConfig) (d : RugPullDetector) : ScanOutcome :=
  if d.trades_.isEmpty then ⟨{}, d, 0⟩
  else processLoop config (d.trades_.length - d.current_idx_) d 0

/-! ## Dispatcher: `TradeProcessor` of `main.cpp` -/

/-- Queue state of class `TradeProcessor`: one FIFO of keys per worker, front
of the queue first, and the stop flag.  Threads, mutexes and the condition
variable are not part of this state. -/
structure TradeProcessor where
  work_queues_ : List (List String)
  should_stop_ : Bool
  deriving DecidableEq, Repr

/-- Constructor `TradeProcessor(num_threads)`: `num_threads` empty queues. -/
def TradeProcessor.new (num_threads : Nat) : TradeProcessor :=
  { work_queues_ := List.replicate num_threads [], should_stop_ := false }

/-- Statement `work_queues_[queue_index].push(redis_key)`. -/
def pushAt : List (List String) → Nat → String → List (List String)
  | [], _, _ => []
  | q :: qs, 0, redis_key => (q ++ [redis_key]) :: qs
  | q :: qs, i + 1, redis_key => q :: pushAt qs i redis_key

/-- Method `TradeProcessor::addTask`.  `round_robin` is the function-local
static counter before the call; the pair returned is the counter after the call
and the processor after the call.  The counter is a 64-bit `size_t` that would
need `2 ^ 64` calls to wrap, so it is a natural number here. -/
def addTask (round_robin : Nat) (tp : TradeProcessor) (redis_key : String) :
    Nat × TradeProcessor :=
  let queue_index := round_robin % tp.work_queues_.length
  (round_robin + 1, { tp with work_queues_ := pushAt tp.work_queues_ queue_index redis_key })

/-- Keys submitted one after the other with `addTask`, nothing removed in
between. -/
def addTasks (round_robin : Nat) (tp : TradeProcessor) (keys : List String) :
    Nat × TradeProcessor :=
  keys.foldl (fun s redis_key => addTask s.1 s.2 redis_key) (round_robin, tp)

/-- Statement `work_queues_[i].pop()`. -/
def popAt : List (List String) → Nat → List (List String)
  | [], _ => []
  | q :: qs, 0 => q.tail :: qs
  | q :: qs, i + 1 => q :: popAt qs i

/-- The guarded block `if (!work_queues_[i].empty()) { task = front(); pop();
found_task = true; }` of `processTradesWorker`: the task taken and the
processor afterwards, or `none` when queue `i` is empty. -/
def takeFrom (tp : TradeProcessor) (i : Nat) : Option (String × TradeProcessor) :=
  match tp.work_queues_[i]? with
  | some (task :: _) => some (task, { tp with work_queues_ := popAt tp.work_queues_ i })
  | _ => none

/-- The work-stealing loop `for (size_t i = 0; i < work_queues_.size(); ++i)`
of `processTradesWorker`, from index `i` on; it skips `worker_id` and breaks at
the first non-empty queue.  `fuel` bounds the iterations left. -/
def stealLoop (tp : TradeProcessor) (worker_id : Nat) :
    Nat → Nat → Option (String × TradeProcessor)
  | 0, _ => none
  | fuel + 1, i =>
    if i < tp.work_queues_.length then
      if i = worker_id then stealLoop tp worker_id fuel (i + 1)
      else
        match takeFrom tp i with
        | some found => some found
        | none => stealLoop tp worker_id fuel (i + 1)
    else none

/-- Task selection of one iteration of `processTradesWorker`: own queue first,
then work stealing; `none` is `found_task == false`. -/
def selectTask (tp : TradeProcessor) (worker_id : Nat) : Option (String × TradeProcessor) :=
  match takeFrom tp worker_id with
  | some found => some found
  | none => stealLoop tp worker_id tp.work_queues_.length 0

/-- Method `TradeProcessor::allQueuesEmpty`. -/
def allQueuesEmpty (tp : TradeProcessor) : Bool :=
  tp.work_queues_.all (fun q => q.isEmpty)

/-- How one iteration of the `while (true)` loop of `processTradesWorker`
ends: `processRedisKey(task)`, `return`, or `queue_cv_.wait(lock); continue`. -/
inductive WorkerStep where
  | process (task : String)
  | terminate
  | wait
  deriving DecidableEq, Repr

/-- One iteration of the `while (true)` loop of `processTradesWorker`, run with
no other thread touching the queues in between. -/
def workerIteration (tp : TradeProcessor) (worker_id : Nat) : WorkerStep × TradeProcessor :=
  match selectTask tp worker_id with
  | some (task, tp1) => (WorkerStep.process task, tp1)
  | none =>
    if tp.should_stop_ && allQueuesEmpty tp then (WorkerStep.terminate, tp)
    else (WorkerStep.wait, tp)

/-- A pool of three queues holding `[]`, `["x", "y"]`, `["z"]`. -/
def busyPool : TradeProcessor :=
  { work_queues_ := [[], ["x", "y"], ["z"]], should_stop_ := true }

/-- Number of keys waiting in queue `q`. -/
def queueLength (tp : TradeProcessor) (q : Nat) : Nat := (tp.work_queues_.getD q []).length

/-! ## Properties stated by the specification -/

/-- A log is time-ordered when timestamps never decrease along it. -/
def SortedByTime (trades : List Trade) : Prop :=
  trades.Pairwise (fun a b => a.timestamp ≤ b.timestamp)

instance (trades : List Trade) : Decidable (SortedByTime trades) := by
  unfold SortedByTime; infer_instance

/-- Specification of a trade's drop: `(peak - market_cap) / peak`, taken as 0
while no positive peak has been recorded. -/
def specDrop (d : RugPullDetector) (t : Trade) : ℚ :=
  if d.peak_mc_ > 0 then (d.peak_mc_ - t.market_cap_sol) / d.peak_mc_ else 0

/-- Seconds between a trade and the recorded peak. -/
def timeSincePeak (d : RugPullDetector) (t : Trade) : Int :=
  durationSeconds (t.timestamp - d.peak_time_)

/-- Confidence of a trade: the score of its drop, its time since the peak and
the statistics of its own window, under the default configuration. -/
def confidenceAt (d : RugPullDetector) (t : Trade) : ℚ :=
  calculateConfidence (specDrop d t) (timeSincePeak d t : ℚ)
    (computeWindowStats (getRecentTrades d t.timestamp)).pattern_strength
    (computeWindowStats (getRecentTrades d t.timestamp)).volume_trend defaultConfig

/-- Specification of when a trade fires: its drop is at least 0.40, or its
window has more than one trade, it is at least 5 s past the peak and its
confidence is at least 0.672. -/
def fires (d : RugPullDetector) (t : Trade) : Prop :=
  specDrop d t ≥ 40 / 100 ∨
    ((getRecentTrades d t.timestamp).length > 1 ∧ timeSincePeak d t ≥ 5 ∧
      confidenceAt d t ≥ 672 / 1000)

instance (d : RugPullDetector) (t : Trade) : Decidable (fires d t) := by
  unfold fires; infer_instance

/-- Market caps never decrease along the sequence (a flat or rising series). -/
def NonDecreasingCaps (trades : List Trade) : Prop :=
  trades.Pairwise (fun a b => a.market_cap_sol ≤ b.market_cap_sol)

instance (trades : List Trade) : Decidable (NonDecreasingCaps trades) := by
  unfold NonDecreasingCaps; infer_instance

/-- A rising series: market cap 10 at 0 s, then 100 at 1 s. -/
def risingLog : RugPullDetector :=
  addTrades (RugPullDetector.new 7) [⟨0, 10, 1⟩, ⟨ticksPerSecond, 100, 1⟩]

/-- A gently rising series: market caps 80, 90, 100 at 0 s, 1 s, 20 s. -/
def gentleRise : List Trade :=
  [⟨0, 80, 1⟩, ⟨ticksPerSecond, 90, 5⟩, ⟨20 * ticksPerSecond, 100, 1⟩]

/-- The six trades of the gradual-decline scenario: market caps 100, 95, 90,
85, 80, 75 at 0 s, 10 s, ..., 50 s, with the given volumes. -/
def gradualDecline (v0 v1 v2 v3 v4 v5 : ℚ) : List Trade :=
  [⟨0, 100, v0⟩, ⟨10 * ticksPerSecond, 95, v1⟩, ⟨20 * ticksPerSecond, 90, v2⟩,
    ⟨30 * ticksPerSecond, 85, v3⟩, ⟨40 * ticksPerSecond, 80, v4⟩,
    ⟨50 * ticksPerSecond, 75, v5⟩]

/-- A detector fed the gradual decline with volumes 0, 2, 2, 2, 2, 2: the
volume changes are 2, 0, 0, 0, 0. -/
def earlySpikeLog : RugPullDetector :=
  addTrades (RugPullDetector.new 7) (gradualDecline 0 2 2 2 2 2)

/-- A detector fed the gradual decline with volumes 0, 2, 4, 2, 2, 2. -/
def decliningLog : RugPullDetector :=
  addTrades (RugPullDetector.new 7) (gradualDecline 0 2 4 2 2 2)

/-- A detector that scanned a first trade at market cap 100 and was then fed a
trade at market cap 55: its cursor is at the second trade. -/
def stopLossLog : RugPullDetector :=
  addTrade (processTrades defaultConfig (addTrade (RugPullDetector.new 7) ⟨0, 100, 1⟩)).detector
    ⟨ticksPerSecond, 55, 1⟩

/-- A detector fed a trade at the epoch and, `2 ^ 31` seconds later, two trades
30 s apart. -/
def longLivedLog : RugPullDetector :=
  addTrades (RugPullDetector.new 7)
    [⟨0, 100, 1⟩, ⟨2147483618 * ticksPerSecond, 100, 1⟩, ⟨2147483648 * ticksPerSecond, 100, 1⟩]

/-- A detector fed four trades at 0 s, 50 s, 100 s and 150 s. -/
def sparseLog : RugPullDetector :=
  addTrades (RugPullDetector.new 7)
    [⟨0, 100, 1⟩, ⟨50 * ticksPerSecond, 90, 2⟩, ⟨100 * ticksPerSecond, 80, 3⟩,
      ⟨150 * ticksPerSecond, 70, 4⟩]

/-- Specification of the detection window: the trades of the whole log, in log
order, whose timestamp lies in `[now - window_size seconds, now]`, found by a
linear pass. -/
def linearWindow (d : RugPullDetector) (now : Int) : List Trade :=
  d.trades_.filter (fun t =>
    decide (now - window_size d.analysis_start_time_ now * ticksPerSecond ≤ t.timestamp
      ∧ t.timestamp ≤ now))

/-- Market cap `mc[i]` of the `i`-th trade of a window (0 outside the window). -/
def mcAt (window : List Trade) (i : Nat) : ℚ := (window.getD i ⟨0, 0, 0⟩).market_cap_sol

/-- Specification of `consecutive_drops`: how many of the last `min 3 (n - 1)`
adjacent changes `mc[i] - mc[i - 1]` of a window of `n` trades are negative;
`k` counts back from the most recent change, at `i = n - 1`. -/
def specConsecutiveDrops (window : List Trade) : Nat :=
  let n := window.length
  ((List.range (min 3 (n - 1))).filter
    (fun k => decide (mcAt window (n - 1 - k) - mcAt window (n - 1 - k - 1) < 0))).length

/-- Specification of `price_velocity`: the arithmetic mean of the `n - 1`
adjacent price changes `mc[i + 1] - mc[i]` of a window of `n` trades. -/
def specPriceVelocity (window : List Trade) : ℚ :=
  ((List.range (window.length - 1)).map
    (fun i => mcAt window (i + 1) - mcAt window i)).sum / ((window.length - 1 : Nat) : ℚ)

/-- Volume `vol[i]` of the `i`-th trade of a window (0 outside the window). -/
def volAt (window : List Trade) (i : Nat) : ℚ := (window.getD i ⟨0, 0, 0⟩).sol_amount

/-- Specification of `volume_trend`: the arithmetic mean of the `n - 1`
absolute adjacent volume changes `|vol[i + 1] - vol[i]|`. -/
def specVolumeTrend (window : List Trade) : ℚ :=
  ((List.range (window.length - 1)).map
    (fun i => |volAt window (i + 1) - volAt window i|)).sum / ((window.length - 1 : Nat) : ℚ)

/-- One call of the public interface of `RugPullDetector`. -/
inductive Call where
  | addTrade (trade : Trade)
  | processTrades (config : DetectionConfig)

/-- The detector after one call (the result of a scan is dropped). -/
def applyCall (d : RugPullDetector) : Call → RugPullDetector
  | Call.addTrade trade => addTrade d trade
  | Call.processTrades config => (processTrades config d).detector

/-- The detector after a sequence of calls, in order. -/
def runCalls (d : RugPullDetector) (calls : List Call) : RugPullDetector :=
  calls.foldl applyCall d

/-- A detector constructed at time 7 and fed one trade at time 5 with market
cap 0. -/
def zeroCapLog : RugPullDetector :=
  addTrades (RugPullDetector.new 7) [⟨5, 0, 1⟩]

/-- A window of four trades with market caps 10, 9, 11, 8. -/
def zigzagWindow : List Trade := [⟨0, 10, 1⟩, ⟨1, 9, 4⟩, ⟨2, 11, 2⟩, ⟨3, 8, 2⟩]

/-! ## Confidence score -/

theorem indicator_nonneg (b : Bool) : 0 ≤ indicator b := by
  unfold indicator; split <;> norm_num

theorem indicator_le_one (b : Bool) : indicator b ≤ 1 := by
  unfold indicator; split <;> norm_num

/-- C6: for every drop, pattern and volume, every `time_diff ≥ 0` and every
configuration with a positive `time_from_peak_threshold`, the value of
`calculateConfidence` lies in the closed interval `[0, 1]`. -/
theorem calculateConfidence_mem_unit_interval (drop time_diff : ℚ) (pattern : CubeRoot)
    (volume : ℚ) (config : DetectionConfig) (htime : 0 ≤ time_diff)
    (hthr : 0 < config.time_from_peak_threshold) :
    0 ≤ calculateConfidence drop time_diff pattern volume config ∧
      calculateConfidence drop time_diff pattern volume config ≤ 1 := by
  have hq : (0 : ℚ) < (config.time_from_peak_threshold : ℚ) := by exact_mod_cast hthr
  have hdiv : 0 ≤ time_diff / (config.time_from_peak_threshold : ℚ) := div_nonneg htime hq.le
  have ht0 : 0 ≤ max 0 (1 - time_diff / (config.time_from_peak_threshold : ℚ)) := le_max_left _ _
  have ht1 : max 0 (1 - time_diff / (config.time_from_peak_threshold : ℚ)) ≤ 1 :=
    max_le (by norm_num) (by linarith)
  have hp0 := indicator_nonneg (decide (drop ≥ config.peak_drop_threshold))
  have hp1 := indicator_le_one (decide (drop ≥ config.peak_drop_threshold))
  have hs0 := indicator_nonneg (pattern.ge config.pattern_strength_threshold)
  have hs1 := indicator_le_one (pattern.ge config.pattern_strength_threshold)
  have hv0 := indicator_nonneg (decide (volume ≥ config.volume_spike_threshold))
  have hv1 := indicator_le_one (decide (volume ≥ config.volume_spike_threshold))
  have hpt0 := mul_nonneg hp0 ht0
  have hpt1 : indicator (decide (drop ≥ config.peak_drop_threshold)) *
      max 0 (1 - time_diff / (config.time_from_peak_threshold : ℚ)) ≤ 1 := by
    calc _ ≤ 1 * 1 := mul_le_mul hp1 ht1 ht0 (by norm_num)
      _ = 1 := by norm_num
  unfold calculateConfidence
  constructor
  · nlinarith
  · nlinarith

theorem calculateConfidence_mem_unit_interval_witness :
    (0 : ℚ) ≤ 20 ∧ 0 < defaultConfig.time_from_peak_threshold ∧
      0 ≤ calculateConfidence (15 / 100) 20 ⟨3⟩ 2 defaultConfig ∧
      calculateConfidence (15 / 100) 20 ⟨3⟩ 2 defaultConfig ≤ 1 :=
  ⟨by norm_num, by decide,
    calculateConfidence_mem_unit_interval (15 / 100) 20 ⟨3⟩ 2 defaultConfig (by norm_num)
      (by decide)⟩

/-! ## Window size -/

theorem window_size_ge (start now : Int) : 10 ≤ window_size start now := by
  unfold window_size max_detection_time
  exact le_min (le_max_left _ _) (by norm_num)

theorem window_size_le (start now : Int) : window_size start now ≤ 60 := by
  unfold window_size max_detection_time
  exact min_le_right _ _

theorem toInt32_of_small (x : Int) (hlo : -2147483648 ≤ x) (hhi : x < 2147483648) :
    toInt32 x = x := by
  unfold toInt32; omega

theorem window_size_of_elapsed_in_range (start now : Int)
    (hlo : 10 ≤ durationSeconds (now - start)) (hhi : durationSeconds (now - start) ≤ 60) :
    window_size start now = durationSeconds (now - start) := by
  have h32 := toInt32_of_small (durationSeconds (now - start)) (by omega) (by omega)
  simp only [window_size, max_detection_time, h32]
  rw [max_eq_right hlo, min_eq_left hhi]

/-- C8: with the analysis started at the epoch and an evaluation time
`2 ^ 31` seconds later, the elapsed whole seconds are `2147483648` (more than
60), yet `static_cast<int>` wraps them to a negative number and the window size
is 10 seconds instead of 60 (one second earlier it still is 60); so the window
of the last trade of `longLivedLog` misses the trade made 30 s before it. -/
theorem window_size_wraps_at_two_pow_31 :
    durationSeconds (2147483648 * ticksPerSecond - 0) = 2147483648 ∧
      toInt32 2147483648 = -2147483648 ∧
      window_size 0 (2147483648 * ticksPerSecond) = 10 ∧
      window_size 0 (2147483647 * ticksPerSecond) = 60 ∧
      SortedByTime longLivedLog.trades_ ∧
      longLivedLog.analysis_start_time_ = 0 ∧
      getRecentTrades longLivedLog (2147483648 * ticksPerSecond)
        = [⟨2147483648 * ticksPerSecond, 100, 1⟩] := by
  decide!

/-! ## Window statistics -/

theorem priceChanges_length (w : List Trade) : (priceChanges w).length = w.length - 1 := by
  induction w with
  | nil => rfl
  | cons a l ih =>
    cases l with
    | nil => rfl
    | cons b rest =>
      simp only [priceChanges, List.length_cons] at ih ⊢
      omega

theorem priceChanges_getD (w : List Trade) (j : Nat) (hj : j + 1 < w.length) :
    (priceChanges w).getD j 0 = mcAt w (j + 1) - mcAt w j := by
  induction w generalizing j with
  | nil => simp at hj
  | cons a l ih =>
    cases l with
    | nil => simp at hj
    | cons b rest =>
      cases j with
      | zero => simp [priceChanges, mcAt]
      | succ k =>
        have hk : k + 1 < (b :: rest).length := by simpa using hj
        have := ih k hk
        simpa [priceChanges, mcAt] using this

theorem countRecentDrops_le (pc : List ℚ) : countRecentDrops pc ≤ min 3 pc.length := by
  unfold countRecentDrops
  calc _ ≤ (pc.reverse.take 3).length := List.countP_le_length _
    _ = min 3 pc.length := by simp

theorem reverse_take_eq_map_range (pc : List ℚ) (m : Nat) :
    pc.reverse.take m
      = (List.range (min m pc.length)).map (fun k => pc.getD (pc.length - 1 - k) 0) := by
  apply List.ext_getElem
  · simp
  · intro i h1 h2
    have hi : i < pc.length := by
      simp at h2; omega
    have hidx : pc.length - 1 - i < pc.length := by omega
    simp [List.getElem_take, List.getElem_reverse, hi, List.getElem?_eq_getElem hidx]

theorem countRecentDrops_eq_spec (w : List Trade) :
    countRecentDrops (priceChanges w) = specConsecutiveDrops w := by
  unfold countRecentDrops specConsecutiveDrops
  rw [reverse_take_eq_map_range, List.countP_map, List.countP_eq_length_filter,
    priceChanges_length]
  congr 1
  apply List.filter_congr
  intro k hk
  have hk2 : k < min 3 (w.length - 1) := List.mem_range.mp hk
  have hj : (w.length - 1 - 1 - k) + 1 < w.length := by omega
  have hget := priceChanges_getD w (w.length - 1 - 1 - k) hj
  have e1 : w.length - 1 - 1 - k + 1 = w.length - 1 - k := by omega
  have e2 : w.length - 1 - 1 - k = w.length - 1 - k - 1 := by omega
  simp only [Function.comp]
  rw [decide_eq_decide, hget, e1, e2]

theorem computeWindowStats_drops (w : List Trade) (hn : 2 ≤ w.length) :
    (computeWindowStats w).consecutive_drops = ((countRecentDrops (priceChanges w) : Nat) : Int) := by
  unfold computeWindowStats
  rw [if_neg (by omega)]

theorem mcAt_append_right (pre suf : List Trade) (j : Nat) :
    mcAt (pre ++ suf) (pre.length + j) = mcAt suf j := by
  unfold mcAt
  rw [List.getD_append_right _ _ _ _ (by omega)]
  simp

/-- C10: for a window of `n ≥ 2` trades, `consecutive_drops` is the number of
negative entries among the last `min 3 (n - 1)` adjacent price changes
`mc[i] - mc[i - 1]`; it lies between 0 and `min 3 (n - 1)`; and it is a count,
not a run length: a window whose last three changes are negative, positive,
negative yields 2. -/
theorem consecutive_drops_counts_last_three (w : List Trade) (hn : 2 ≤ w.length) :
    (computeWindowStats w).consecutive_drops = (specConsecutiveDrops w : Int) ∧
      0 ≤ (computeWindowStats w).consecutive_drops ∧
      (computeWindowStats w).consecutive_drops ≤ ((min 3 (w.length - 1) : Nat) : Int) ∧
      (∀ (pre : List Trade) (t0 t1 t2 t3 : Trade), w = pre ++ [t0, t1, t2, t3] →
        t1.market_cap_sol - t0.market_cap_sol < 0 →
        0 < t2.market_cap_sol - t1.market_cap_sol →
        t3.market_cap_sol - t2.market_cap_sol < 0 →
        (computeWindowStats w).consecutive_drops = 2) := by
  have hcd := computeWindowStats_drops w hn
  have hle := countRecentDrops_le (priceChanges w)
  rw [priceChanges_length] at hle
  refine ⟨?_, ?_, ?_, ?_⟩
  · rw [hcd, countRecentDrops_eq_spec]
  · rw [hcd]; exact Int.natCast_nonneg _
  · rw [hcd]; exact_mod_cast hle
  · intro pre t0 t1 t2 t3 hw h1 h2 h3
    rw [hcd, countRecentDrops_eq_spec]
    subst hw
    have hlen : (pre ++ [t0, t1, t2, t3]).length = pre.length + 4 := by simp
    have hmin : min 3 (pre.length + 4 - 1) = 3 := by omega
    have key : ∀ k ∈ List.range 3,
        decide (mcAt (pre ++ [t0, t1, t2, t3]) (pre.length + 4 - 1 - k)
          - mcAt (pre ++ [t0, t1, t2, t3]) (pre.length + 4 - 1 - k - 1) < 0)
        = decide (mcAt [t0, t1, t2, t3] (3 - k) - mcAt [t0, t1, t2, t3] (2 - k) < 0) := by
      intro k hk
      have hk3 : k < 3 := List.mem_range.mp hk
      have e1 : pre.length + 4 - 1 - k = pre.length + (3 - k) := by omega
      have e2 : pre.length + 4 - 1 - k - 1 = pre.length + (2 - k) := by omega
      rw [e2, e1, mcAt_append_right, mcAt_append_right]
    have h1' : t1.market_cap_sol < t0.market_cap_sol := sub_neg.mp h1
    have h2' : ¬ t2.market_cap_sol < t1.market_cap_sol := not_lt.mpr (sub_pos.mp h2).le
    have h3' : t3.market_cap_sol < t2.market_cap_sol := sub_neg.mp h3
    simp only [specConsecutiveDrops, hlen, hmin]
    rw [List.filter_congr key]
    simp [List.range_succ, List.filter_cons, mcAt, h1', h2', h3']

theorem consecutive_drops_counts_last_three_witness :
    2 ≤ [(⟨0, 10, 1⟩ : Trade), ⟨1, 9, 1⟩, ⟨2, 11, 1⟩, ⟨3, 8, 1⟩].length ∧
      (computeWindowStats [⟨0, 10, 1⟩, ⟨1, 9, 1⟩, ⟨2, 11, 1⟩, ⟨3, 8, 1⟩]).consecutive_drops = 2 :=
  ⟨by decide,
    (consecutive_drops_counts_last_three [⟨0, 10, 1⟩, ⟨1, 9, 1⟩, ⟨2, 11, 1⟩, ⟨3, 8, 1⟩]
      (by decide)).2.2.2 [] ⟨0, 10, 1⟩ ⟨1, 9, 1⟩ ⟨2, 11, 1⟩ ⟨3, 8, 1⟩ rfl (by norm_num)
      (by norm_num) (by norm_num)⟩

/-! ## Peak tracking by `addTrade` -/

theorem addTrade_peak_mc (d : RugPullDetector) (t : Trade) :
    (addTrade d t).peak_mc_ = max d.peak_mc_ t.market_cap_sol := by
  unfold addTrade
  by_cases h : t.market_cap_sol > d.peak_mc_
  · have h' : d.peak_mc_ ≤ t.market_cap_sol := le_of_lt h
    split <;> simp [h, max_eq_right h']
  · have h' : t.market_cap_sol ≤ d.peak_mc_ := not_lt.mp h
    split <;> simp [h, max_eq_left h']

theorem addTrade_trades (d : RugPullDetector) (t : Trade) :
    (addTrade d t).trades_ = d.trades_ ++ [t] := by
  simp only [addTrade]
  split_ifs <;> rfl

theorem addTrade_current_idx (d : RugPullDetector) (t : Trade) :
    (addTrade d t).current_idx_ = d.current_idx_ := by
  simp only [addTrade]
  split_ifs <;> rfl

theorem addTrades_nil (d : RugPullDetector) : addTrades d [] = d := rfl

theorem addTrades_cons (d : RugPullDetector) (t : Trade) (l : List Trade) :
    addTrades d (t :: l) = addTrades (addTrade d t) l := rfl

theorem addTrades_trades (d : RugPullDetector) (l : List Trade) :
    (addTrades d l).trades_ = d.trades_ ++ l := by
  induction l generalizing d with
  | nil => simp [addTrades_nil]
  | cons t l ih => rw [addTrades_cons, ih, addTrade_trades]; simp

theorem addTrades_current_idx (d : RugPullDetector) (l : List Trade) :
    (addTrades d l).current_idx_ = d.current_idx_ := by
  induction l generalizing d with
  | nil => rfl
  | cons t l ih => rw [addTrades_cons, ih, addTrade_current_idx]

theorem addTrades_peak_ge_init (d : RugPullDetector) (l : List Trade) :
    d.peak_mc_ ≤ (addTrades d l).peak_mc_ := by
  induction l generalizing d with
  | nil => exact le_refl _
  | cons t l ih =>
    rw [addTrades_cons]
    exact le_trans (by rw [addTrade_peak_mc]; exact le_max_left _ _) (ih (addTrade d t))

theorem addTrades_peak_ge_mem (d : RugPullDetector) (l : List Trade) :
    ∀ t ∈ l, t.market_cap_sol ≤ (addTrades d l).peak_mc_ := by
  induction l generalizing d with
  | nil => intro t ht; simp at ht
  | cons a l ih =>
    intro t ht
    rw [addTrades_cons]
    rcases List.mem_cons.mp ht with rfl | hmem
    · exact le_trans (by rw [addTrade_peak_mc]; exact le_max_right _ _)
        (addTrades_peak_ge_init (addTrade d t) l)
    · exact ih (addTrade d a) t hmem

theorem addTrades_peak_attained (d : RugPullDetector) (l : List Trade) :
    (addTrades d l).peak_mc_ = d.peak_mc_ ∨
      ∃ t ∈ l, t.market_cap_sol = (addTrades d l).peak_mc_ := by
  induction l generalizing d with
  | nil => exact Or.inl rfl
  | cons a l ih =>
    rw [addTrades_cons]
    rcases ih (addTrade d a) with h | ⟨t, ht, hEq⟩
    · rw [h, addTrade_peak_mc]
      rcases le_total d.peak_mc_ a.market_cap_sol with hle | hle
      · right; exact ⟨a, List.mem_cons_self _ _, by rw [max_eq_right hle]⟩
      · left; rw [max_eq_left hle]
    · right; exact ⟨t, List.mem_cons_of_mem _ ht, hEq⟩

/-- C5: after `addTrade` has been called on the first `N ≥ 1` trades of a
sequence with non-negative market caps on a fresh detector, the tracked peak
is the maximum market cap of those `N` trades: some trade among them has it and
none exceeds it (the order of the timestamps plays no part). -/
theorem peak_is_max_of_first_trades (now : Int) (trades : List Trade) (N : Nat)
    (hN : 1 ≤ N) (hlen : N ≤ trades.length)
    (hnonneg : ∀ t ∈ trades, 0 ≤ t.market_cap_sol) :
    (∃ t ∈ trades.take N,
        t.market_cap_sol = (addTrades (RugPullDetector.new now) (trades.take N)).peak_mc_) ∧
      ∀ t ∈ trades.take N,
        t.market_cap_sol ≤ (addTrades (RugPullDetector.new now) (trades.take N)).peak_mc_ := by
  refine ⟨?_, addTrades_peak_ge_mem _ _⟩
  rcases addTrades_peak_attained (RugPullDetector.new now) (trades.take N) with h | h
  · have hne : trades.take N ≠ [] := by
      intro hnil
      have := congrArg List.length hnil
      rw [List.length_take, List.length_nil] at this
      omega
    obtain ⟨a, l, hal⟩ := List.exists_cons_of_ne_nil hne
    have ha : a ∈ trades.take N := by rw [hal]; exact List.mem_cons_self _ _
    have hge := addTrades_peak_ge_mem (RugPullDetector.new now) (trades.take N) a ha
    have h0 : 0 ≤ a.market_cap_sol := hnonneg a (List.mem_of_mem_take ha)
    rw [h] at hge ⊢
    have hz : (RugPullDetector.new now).peak_mc_ = 0 := rfl
    exact ⟨a, ha, le_antisymm hge (by rw [hz]; exact h0)⟩
  · exact h

theorem peak_is_max_of_first_trades_witness :
    1 ≤ 2 ∧ 2 ≤ [(⟨0, 3, 1⟩ : Trade), ⟨1, 7, 1⟩, ⟨2, 9, 1⟩].length ∧
      (∀ t ∈ [(⟨0, 3, 1⟩ : Trade), ⟨1, 7, 1⟩, ⟨2, 9, 1⟩], 0 ≤ t.market_cap_sol) ∧
      (addTrades (RugPullDetector.new 5) [⟨0, 3, 1⟩, ⟨1, 7, 1⟩]).peak_mc_ = 7 ∧
      ((∃ t ∈ [(⟨0, 3, 1⟩ : Trade), ⟨1, 7, 1⟩, ⟨2, 9, 1⟩].take 2,
          t.market_cap_sol = (addTrades (RugPullDetector.new 5)
            ([(⟨0, 3, 1⟩ : Trade), ⟨1, 7, 1⟩, ⟨2, 9, 1⟩].take 2)).peak_mc_) ∧
        ∀ t ∈ [(⟨0, 3, 1⟩ : Trade), ⟨1, 7, 1⟩, ⟨2, 9, 1⟩].take 2,
          t.market_cap_sol ≤ (addTrades (RugPullDetector.new 5)
            ([(⟨0, 3, 1⟩ : Trade), ⟨1, 7, 1⟩, ⟨2, 9, 1⟩].take 2)).peak_mc_) :=
  ⟨by decide, by decide, by simp, by decide!,
    peak_is_max_of_first_trades 5 [⟨0, 3, 1⟩, ⟨1, 7, 1⟩, ⟨2, 9, 1⟩] 2 (by decide) (by decide)
      (by simp)⟩

/-! ## Binary-search window -/

theorem timestampAt_eq (trades : List Trade) (i : Nat) (h : i < trades.length) :
    timestampAt trades i = trades[i].timestamp := by
  unfold timestampAt
  rw [List.getElem?_eq_getElem h]

theorem sorted_timestampAt (trades : List Trade) (hs : SortedByTime trades) (i j : Nat)
    (hij : i ≤ j) (hj : j < trades.length) :
    timestampAt trades i ≤ timestampAt trades j := by
  rcases Nat.eq_or_lt_of_le hij with rfl | hlt
  · exact le_refl _
  · rw [timestampAt_eq trades i (by omega), timestampAt_eq trades j hj]
    exact (List.pairwise_iff_getElem.mp hs) i j (by omega) hj hlt

theorem lowerBoundLoop_spec (trades : List Trade) (time : Int) (hs : SortedByTime trades) :
    ∀ (fuel first len : Nat), len ≤ fuel → first + len ≤ trades.length →
      first ≤ lowerBoundLoop trades time fuel first len ∧
      lowerBoundLoop trades time fuel first len ≤ first + len ∧
      (∀ i, first ≤ i → i < lowerBoundLoop trades time fuel first len →
        timestampAt trades i < time) ∧
      (∀ i, lowerBoundLoop trades time fuel first len ≤ i → i < first + len →
        time ≤ timestampAt trades i) := by
  intro fuel
  induction fuel with
  | zero =>
    intro first len hlen _
    have h0 : len = 0 := by omega
    subst h0
    simp only [lowerBoundLoop]
    exact ⟨le_refl _, by omega, fun i h1 h2 => by omega, fun i h1 h2 => by omega⟩
  | succ fuel ih =>
    intro first len hlen hbound
    simp only [lowerBoundLoop]
    by_cases hpos : 0 < len
    · rw [if_pos hpos]
      by_cases hcmp : timestampAt trades (first + len / 2) < time
      · rw [if_pos hcmp]
        have hhalf : len / 2 < len := Nat.div_lt_self hpos (by norm_num)
        obtain ⟨r1, r2, r3, r4⟩ := ih (first + len / 2 + 1) (len - len / 2 - 1)
          (by omega) (by omega)
        refine ⟨by omega, by omega, ?_, ?_⟩
        · intro i h1 h2
          by_cases hi : i ≤ first + len / 2
          · exact lt_of_le_of_lt (sorted_timestampAt trades hs i _ hi (by omega)) hcmp
          · exact r3 i (by omega) h2
        · intro i h1 h2
          exact r4 i h1 (by omega)
      · rw [if_neg hcmp]
        have hhalf : len / 2 < len := Nat.div_lt_self hpos (by norm_num)
        obtain ⟨r1, r2, r3, r4⟩ := ih first (len / 2) (by omega) (by omega)
        refine ⟨r1, by omega, r3, ?_⟩
        intro i h1 h2
        by_cases hi : i < first + len / 2
        · exact r4 i h1 hi
        · exact le_trans (not_lt.mp hcmp)
            (sorted_timestampAt trades hs _ i (by omega) (by omega))
    · rw [if_neg hpos]
      exact ⟨le_refl _, by omega, fun i h1 h2 => by omega, fun i h1 h2 => by omega⟩

theorem upperBoundLoop_spec (trades : List Trade) (time : Int) (hs : SortedByTime trades) :
    ∀ (fuel first len : Nat), len ≤ fuel → first + len ≤ trades.length →
      first ≤ upperBoundLoop trades time fuel first len ∧
      upperBoundLoop trades time fuel first len ≤ first + len ∧
      (∀ i, first ≤ i → i < upperBoundLoop trades time fuel first len →
        timestampAt trades i ≤ time) ∧
      (∀ i, upperBoundLoop trades time fuel first len ≤ i → i < first + len →
        time < timestampAt trades i) := by
  intro fuel
  induction fuel with
  | zero =>
    intro first len hlen _
    have h0 : len = 0 := by omega
    subst h0
    simp only [upperBoundLoop]
    exact ⟨le_refl _, by omega, fun i h1 h2 => by omega, fun i h1 h2 => by omega⟩
  | succ fuel ih =>
    intro first len hlen hbound
    simp only [upperBoundLoop]
    by_cases hpos : 0 < len
    · rw [if_pos hpos]
      by_cases hcmp : time < timestampAt trades (first + len / 2)
      · rw [if_pos hcmp]
        have hhalf : len / 2 < len := Nat.div_lt_self hpos (by norm_num)
        obtain ⟨r1, r2, r3, r4⟩ := ih first (len / 2) (by omega) (by omega)
        refine ⟨r1, by omega, r3, ?_⟩
        intro i h1 h2
        by_cases hi : i < first + len / 2
        · exact r4 i h1 hi
        · exact lt_of_lt_of_le hcmp
            (sorted_timestampAt trades hs _ i (by omega) (by omega))
      · rw [if_neg hcmp]
        have hhalf : len / 2 < len := Nat.div_lt_self hpos (by norm_num)
        obtain ⟨r1, r2, r3, r4⟩ := ih (first + len / 2 + 1) (len - len / 2 - 1)
          (by omega) (by omega)
        refine ⟨by omega, by omega, ?_, ?_⟩
        · intro i h1 h2
          by_cases hi : i ≤ first + len / 2
          · exact le_trans (sorted_timestampAt trades hs i _ hi (by omega)) (not_lt.mp hcmp)
          · exact r3 i (by omega) h2
        · intro i h1 h2
          exact r4 i h1 (by omega)
    · rw [if_neg hpos]
      exact ⟨le_refl _, by omega, fun i h1 h2 => by omega, fun i h1 h2 => by omega⟩

theorem slice_eq_filter (P : Trade → Bool) :
    ∀ (l : List Trade) (s e : Nat),
      (∀ (i : Nat) (h : i < l.length), (s ≤ i ∧ i < e) ↔ P l[i] = true) →
      (l.drop s).take (e - s) = l.filter P := by
  intro l
  induction l with
  | nil => intro s e _; simp
  | cons a l ih =>
    intro s e h
    cases s with
    | zero =>
      cases e with
      | zero =>
        have hnone : ∀ x ∈ a :: l, ¬ (P x = true) := by
          intro x hx
          obtain ⟨i, hi, rfl⟩ := List.mem_iff_getElem.mp hx
          intro hP
          have := (h i hi).mpr hP
          omega
        rw [List.filter_eq_nil_iff.mpr hnone]
        simp
      | succ e =>
        have ha : P a = true := (h 0 (by simp)).mp ⟨le_refl _, by omega⟩
        have hrec := ih 0 e (fun i hi => by
          have := h (i + 1) (by simpa using hi)
          simp only [List.getElem_cons_succ] at this
          rw [← this]
          omega)
        simp only [List.drop_zero, Nat.sub_zero] at hrec ⊢
        rw [List.take_succ_cons, List.filter_cons_of_pos ha, hrec]
    | succ s =>
      have ha : ¬ (P a = true) := by
        intro hP
        have := (h 0 (by simp)).mpr hP
        omega
      have hrec := ih s (e - 1) (fun i hi => by
        have := h (i + 1) (by simpa using hi)
        simp only [List.getElem_cons_succ] at this
        rw [← this]
        omega)
      rw [List.drop_succ_cons, List.filter_cons_of_neg ha, ← hrec]
      congr 1
      omega

theorem windowBounds_spec (d : RugPullDetector) (now : Int) (hs : SortedByTime d.trades_) :
    (windowBounds d now).1 ≤ (windowBounds d now).2 ∧
      (windowBounds d now).2 ≤ d.trades_.length ∧
      (∀ i, i < d.trades_.length →
        (i < (windowBounds d now).1 ↔
          timestampAt d.trades_ i < now - window_size d.analysis_start_time_ now * ticksPerSecond)) ∧
      (∀ i, (windowBounds d now).1 ≤ i → i < d.trades_.length →
        (i < (windowBounds d now).2 ↔ timestampAt d.trades_ i ≤ now)) := by
  obtain ⟨a1, a2, a3, a4⟩ := lowerBoundLoop_spec d.trades_
    (now - window_size d.analysis_start_time_ now * ticksPerSecond) hs
    (d.trades_.length - 0) 0 (d.trades_.length - 0) (le_refl _) (by omega)
  have hstart : (windowBounds d now).1 = lowerBoundLoop d.trades_
      (now - window_size d.analysis_start_time_ now * ticksPerSecond)
      (d.trades_.length - 0) 0 (d.trades_.length - 0) := rfl
  rw [← hstart] at a1 a2 a3 a4
  obtain ⟨b1, b2, b3, b4⟩ := upperBoundLoop_spec d.trades_ now hs
    (d.trades_.length - (windowBounds d now).1) (windowBounds d now).1
    (d.trades_.length - (windowBounds d now).1) (le_refl _) (by omega)
  have hend : (windowBounds d now).2 = upperBoundLoop d.trades_ now
      (d.trades_.length - (windowBounds d now).1) (windowBounds d now).1
      (d.trades_.length - (windowBounds d now).1) := rfl
  rw [← hend] at b1 b2 b3 b4
  refine ⟨b1, by omega, ?_, ?_⟩
  · intro i hi
    constructor
    · intro h; exact a3 i (Nat.zero_le _) h
    · intro h
      by_contra hcon
      have := a4 i (by omega) (by omega)
      omega
  · intro i h1 hi
    constructor
    · intro h; exact b3 i h1 h
    · intro h
      by_contra hcon
      have := b4 i (by omega) (by omega)
      omega

theorem getRecentTrades_eq_linearWindow (d : RugPullDetector) (now : Int)
    (hs : SortedByTime d.trades_) : getRecentTrades d now = linearWindow d now := by
  obtain ⟨c1, c2, c3, c4⟩ := windowBounds_spec d now hs
  unfold getRecentTrades linearWindow
  apply slice_eq_filter
  intro i hi
  have e := timestampAt_eq d.trades_ i hi
  have h3 := c3 i hi
  rw [e] at h3
  simp only [decide_eq_true_eq]
  constructor
  · rintro ⟨h1, h2⟩
    have h4 := c4 i h1 hi
    rw [e] at h4
    exact ⟨by have := mt h3.mpr (by omega); omega, h4.mp h2⟩
  · rintro ⟨h1, h2⟩
    have hsi : (windowBounds d now).1 ≤ i := by
      by_contra hcon
      have := h3.mp (by omega)
      omega
    have h4 := c4 i hsi hi
    rw [e] at h4
    exact ⟨hsi, h4.mpr h2⟩

theorem ticksPerSecond_pos : 0 < ticksPerSecond := by decide

theorem window_start_le (start now : Int) :
    now - window_size start now * ticksPerSecond ≤ now := by
  have h1 := window_size_ge start now
  have h2 : 0 ≤ window_size start now * ticksPerSecond :=
    mul_nonneg (by omega) ticksPerSecond_pos.le
  omega

theorem mem_getRecentTrades_self (d : RugPullDetector) (hs : SortedByTime d.trades_)
    (i : Nat) (hi : i < d.trades_.length) :
    d.trades_[i] ∈ getRecentTrades d d.trades_[i].timestamp := by
  rw [getRecentTrades_eq_linearWindow d _ hs]
  unfold linearWindow
  rw [List.mem_filter]
  refine ⟨List.getElem_mem hi, ?_⟩
  simp only [decide_eq_true_eq]
  exact ⟨window_start_le _ _, le_refl _⟩

theorem getRecentTrades_self_not_empty (d : RugPullDetector) (hs : SortedByTime d.trades_)
    (i : Nat) (hi : i < d.trades_.length) :
    (getRecentTrades d d.trades_[i].timestamp).isEmpty = false := by
  have hmem := mem_getRecentTrades_self d hs i hi
  cases hw : getRecentTrades d d.trades_[i].timestamp with
  | nil => rw [hw] at hmem; simp at hmem
  | cons a l => rfl

/-- C7: on a log sorted by non-decreasing timestamp, the slice returned by
`getRecentTrades` is the linear filter of the whole log by
`now - window_size ≤ timestamp ≤ now`, in log order; its start is the first
index whose timestamp is at least `now - window_size`, and its end the first
index at or after the start whose timestamp exceeds `now`. -/
theorem binary_search_window_eq_linear_filter (d : RugPullDetector) (now : Int)
    (hs : SortedByTime d.trades_) :
    getRecentTrades d now = linearWindow d now ∧
      (windowBounds d now).1 ≤ (windowBounds d now).2 ∧
      (windowBounds d now).2 ≤ d.trades_.length ∧
      (∀ i, i < d.trades_.length →
        (i < (windowBounds d now).1 ↔
          timestampAt d.trades_ i < now - window_size d.analysis_start_time_ now * ticksPerSecond)) ∧
      (∀ i, (windowBounds d now).1 ≤ i → i < d.trades_.length →
        (i < (windowBounds d now).2 ↔ timestampAt d.trades_ i ≤ now)) :=
  ⟨getRecentTrades_eq_linearWindow d now hs, windowBounds_spec d now hs⟩

theorem binary_search_window_eq_linear_filter_witness :
    SortedByTime sparseLog.trades_ ∧
      getRecentTrades sparseLog (100 * ticksPerSecond)
        = [⟨50 * ticksPerSecond, 90, 2⟩, ⟨100 * ticksPerSecond, 80, 3⟩] ∧
      getRecentTrades sparseLog (100 * ticksPerSecond)
        = linearWindow sparseLog (100 * ticksPerSecond) :=
  ⟨by decide!, by decide!,
    (binary_search_window_eq_linear_filter sparseLog (100 * ticksPerSecond) (by decide!)).1⟩

/-! ## The scan loop -/

theorem detector_with_cursor_self (d : RugPullDetector) (k : Nat) (h : d.current_idx_ = k) :
    { d with current_idx_ := k } = d := by
  subst h; rfl

theorem processLoop_exhausted (config : DetectionConfig) :
    ∀ (fuel : Nat) (d : RugPullDetector) (calls : Nat),
      d.trades_.length - d.current_idx_ ≤ fuel →
      d.current_idx_ ≤ d.trades_.length →
      (∀ (i : Nat) (h : i < d.trades_.length), d.current_idx_ ≤ i →
        scanStep config d d.trades_[i] = none) →
      processLoop config fuel d calls
        = ⟨{}, { d with current_idx_ := d.trades_.length },
            calls + (d.trades_.length - d.current_idx_)⟩ := by
  intro fuel
  induction fuel with
  | zero =>
    intro d calls hfuel hle _
    have hEq : d.current_idx_ = d.trades_.length := by omega
    simp only [processLoop]
    rw [detector_with_cursor_self d _ hEq, hEq]
    simp
  | succ fuel ih =>
    intro d calls hfuel hle hnone
    simp only [processLoop]
    by_cases hlt : d.current_idx_ < d.trades_.length
    · rw [dif_pos hlt, hnone d.current_idx_ hlt (le_refl _)]
      have hrec := ih { d with current_idx_ := d.current_idx_ + 1 } (calls + 1)
        (by simp only; omega) (by simp only; omega)
        (fun i h hi => hnone i h (by simp only at hi; omega))
      simp only at hrec ⊢
      rw [hrec]
      congr 1
      omega
    · rw [dif_neg hlt]
      have hEq : d.current_idx_ = d.trades_.length := by omega
      rw [detector_with_cursor_self d _ hEq, hEq]
      simp

theorem processLoop_fires (config : DetectionConfig) :
    ∀ (fuel : Nat) (d : RugPullDetector) (calls : Nat) (i : Nat) (h : i < d.trades_.length)
      (r : DetectionResult),
      d.trades_.length - d.current_idx_ ≤ fuel →
      d.current_idx_ ≤ i →
      scanStep config d d.trades_[i] = some r →
      (∀ (j : Nat) (hj : j < d.trades_.length), d.current_idx_ ≤ j → j < i →
        scanStep config d d.trades_[j] = none) →
      processLoop config fuel d calls
        = ⟨r, { d with current_idx_ := i }, calls + (i - d.current_idx_ + 1)⟩ := by
  intro fuel
  induction fuel with
  | zero =>
    intro d calls i h r hfuel hle _ _
    omega
  | succ fuel ih =>
    intro d calls i h r hfuel hle hsome hnone
    simp only [processLoop]
    have hlt : d.current_idx_ < d.trades_.length := by omega
    rw [dif_pos hlt]
    rcases Nat.eq_or_lt_of_le hle with hEq | hless
    · have e1 : scanStep config d d.trades_[d.current_idx_] = some r := by
        simp only [hEq]; exact hsome
      rw [e1]
      simp only
      rw [detector_with_cursor_self d _ hEq, hEq]
      simp
    · rw [hnone d.current_idx_ hlt (le_refl _) hless]
      have hrec := ih { d with current_idx_ := d.current_idx_ + 1 } (calls + 1) i h r
        (by simp only; omega) (by simp only; omega) hsome
        (fun j hj hcj hji => hnone j hj (by simp only at hcj; omega) hji)
      simp only at hrec ⊢
      rw [hrec]
      congr 1
      omega

theorem scanStep_of_window_not_empty (config : DetectionConfig) (d : RugPullDetector)
    (t : Trade) (hw : (getRecentTrades d t.timestamp).isEmpty = false) :
    scanStep config d t =
      if currentDrop d.peak_mc_ t.market_cap_sol ≥ config.stop_loss_threshold then
        some (buildResult true t.timestamp "stop_loss" none
          (currentDrop d.peak_mc_ t.market_cap_sol * 100) d.peak_mc_ t.market_cap_sol)
      else if (getRecentTrades d t.timestamp).length > 1 then
        if durationSeconds (t.timestamp - d.peak_time_) ≥ 5 then
          if calculateConfidence (currentDrop d.peak_mc_ t.market_cap_sol)
              (durationSeconds (t.timestamp - d.peak_time_) : ℚ)
              (computeWindowStats (getRecentTrades d t.timestamp)).pattern_strength
              (computeWindowStats (getRecentTrades d t.timestamp)).volume_trend config
              ≥ config.min_confidence_score then
            some (buildResult true t.timestamp "pattern"
              (some (calculateConfidence (currentDrop d.peak_mc_ t.market_cap_sol)
                (durationSeconds (t.timestamp - d.peak_time_) : ℚ)
                (computeWindowStats (getRecentTrades d t.timestamp)).pattern_strength
                (computeWindowStats (getRecentTrades d t.timestamp)).volume_trend config))
              (currentDrop d.peak_mc_ t.market_cap_sol * 100) d.peak_mc_ t.market_cap_sol)
          else none
        else none
      else none := by
  simp only [scanStep, hw]
  rfl

theorem scanStep_none_of_not_fires (d : RugPullDetector) (t : Trade)
    (hw : (getRecentTrades d t.timestamp).isEmpty = false) (hf : ¬ fires d t) :
    scanStep defaultConfig d t = none := by
  rw [scanStep_of_window_not_empty defaultConfig d t hw]
  unfold fires at hf
  push_neg at hf
  obtain ⟨h1, h2⟩ := hf
  have hsl : defaultConfig.stop_loss_threshold = 40 / 100 := rfl
  have hmc : defaultConfig.min_confidence_score = 672 / 1000 := rfl
  rw [hsl, hmc]
  have hdrop : currentDrop d.peak_mc_ t.market_cap_sol = specDrop d t := rfl
  rw [hdrop, if_neg (not_le.mpr h1)]
  split_ifs with h3 h4 h5
  · exact absurd h5 (not_le.mpr (h2 h3 h4))
  · rfl
  · rfl
  · rfl

theorem scanStep_some_of_fires (d : RugPullDetector) (t : Trade)
    (hw : (getRecentTrades d t.timestamp).isEmpty = false) (hf : fires d t) :
    ∃ r, scanStep defaultConfig d t = some r ∧ r.rug_pulled = true ∧
      r.timestamp = some t.timestamp ∧
      r.debug_info.trigger_type
        = (if specDrop d t ≥ 40 / 100 then "stop_loss" else "pattern") := by
  rw [scanStep_of_window_not_empty defaultConfig d t hw]
  have hsl : defaultConfig.stop_loss_threshold = 40 / 100 := rfl
  have hmc : defaultConfig.min_confidence_score = 672 / 1000 := rfl
  have hdrop : currentDrop d.peak_mc_ t.market_cap_sol = specDrop d t := rfl
  rw [hsl, hmc, hdrop]
  by_cases h1 : specDrop d t ≥ 40 / 100
  · rw [if_pos h1, if_pos h1]
    exact ⟨_, rfl, rfl, rfl, rfl⟩
  · rw [if_neg h1, if_neg h1]
    rcases hf with hf | ⟨h3, h4, h5⟩
    · exact absurd hf h1
    · have h4' : durationSeconds (t.timestamp - d.peak_time_) ≥ 5 := h4
      have h5' : calculateConfidence (specDrop d t)
          (durationSeconds (t.timestamp - d.peak_time_) : ℚ)
          (computeWindowStats (getRecentTrades d t.timestamp)).pattern_strength
          (computeWindowStats (getRecentTrades d t.timestamp)).volume_trend defaultConfig
          ≥ 672 / 1000 := h5
      rw [if_pos h3, if_pos h4', if_pos h5']
      exact ⟨_, rfl, rfl, rfl, rfl⟩

theorem scanStep_rug_pulled (config : DetectionConfig) (d : RugPullDetector) (t : Trade)
    (r : DetectionResult) (h : scanStep config d t = some r) : r.rug_pulled = true := by
  simp only [scanStep] at h
  split_ifs at h <;> (injection h with h'; rw [← h']; rfl)

theorem processLoop_outcome (config : DetectionConfig) (fuel : Nat) (d : RugPullDetector)
    (calls : Nat) (hfuel : d.trades_.length - d.current_idx_ ≤ fuel)
    (hle : d.current_idx_ ≤ d.trades_.length) :
    ((∀ (i : Nat) (h : i < d.trades_.length), d.current_idx_ ≤ i →
        scanStep config d d.trades_[i] = none) ∧
      processLoop config fuel d calls
        = ⟨{}, { d with current_idx_ := d.trades_.length },
            calls + (d.trades_.length - d.current_idx_)⟩) ∨
    (∃ (i : Nat) (h : i < d.trades_.length) (r : DetectionResult),
      d.current_idx_ ≤ i ∧ scanStep config d d.trades_[i] = some r ∧
      (∀ (j : Nat) (hj : j < d.trades_.length), d.current_idx_ ≤ j → j < i →
        scanStep config d d.trades_[j] = none) ∧
      processLoop config fuel d calls
        = ⟨r, { d with current_idx_ := i }, calls + (i - d.current_idx_ + 1)⟩) := by
  classical
  by_cases hex : ∃ i, ∃ h : i < d.trades_.length,
      d.current_idx_ ≤ i ∧ scanStep config d d.trades_[i] ≠ none
  · right
    obtain ⟨h, hci, hne⟩ := Nat.find_spec hex
    obtain ⟨r, hr⟩ := Option.ne_none_iff_exists'.mp hne
    have hmin : ∀ (j : Nat) (hj : j < d.trades_.length), d.current_idx_ ≤ j →
        j < Nat.find hex → scanStep config d d.trades_[j] = none := by
      intro j hj hcj hlt
      by_contra hcon
      exact Nat.find_min hex hlt ⟨hj, hcj, hcon⟩
    exact ⟨Nat.find hex, h, r, hci, hr, hmin,
      processLoop_fires config fuel d calls (Nat.find hex) h r hfuel hci hr hmin⟩
  · left
    have hnone : ∀ (i : Nat) (h : i < d.trades_.length), d.current_idx_ ≤ i →
        scanStep config d d.trades_[i] = none := by
      intro i h hci
      by_contra hcon
      exact hex ⟨i, h, hci, hcon⟩
    exact ⟨hnone, processLoop_exhausted config fuel d calls hfuel hle hnone⟩

theorem processTrades_of_empty (config : DetectionConfig) (d : RugPullDetector)
    (h : d.trades_ = []) : processTrades config d = ⟨{}, d, 0⟩ := by
  unfold processTrades
  rw [h]
  rfl

theorem processTrades_of_not_empty (config : DetectionConfig) (d : RugPullDetector)
    (h : d.trades_ ≠ []) :
    processTrades config d = processLoop config (d.trades_.length - d.current_idx_) d 0 := by
  unfold processTrades
  cases ht : d.trades_ with
  | nil => exact absurd ht h
  | cons a l => rfl

theorem trades_ne_nil_of_lt (d : RugPullDetector) (i : Nat) (h : i < d.trades_.length) :
    d.trades_ ≠ [] := by
  intro hnil
  rw [hnil] at h
  simp at h

/-- C1: on a log with non-decreasing timestamps and a cursor inside the log,
under the default configuration: if `i` is the least index at or after the
cursor whose trade fires, `processTrades` returns `rug_pulled = true` with that
trade's timestamp, trigger `stop_loss` when its drop is at least 0.40 and
`pattern` otherwise, and leaves the cursor at `i`; if no trade at or after the
cursor fires, it returns `rug_pulled = false` and leaves the cursor at the
number of trades. -/
theorem processTrades_stops_at_first_firing_trade (d : RugPullDetector)
    (hs : SortedByTime d.trades_) (hc : d.current_idx_ ≤ d.trades_.length) :
    (∀ (i : Nat) (h : i < d.trades_.length), d.current_idx_ ≤ i → fires d d.trades_[i] →
      (∀ (j : Nat) (hj : j < d.trades_.length), d.current_idx_ ≤ j → j < i →
        ¬ fires d d.trades_[j]) →
      (processTrades defaultConfig d).result.rug_pulled = true ∧
      (processTrades defaultConfig d).result.timestamp = some d.trades_[i].timestamp ∧
      (processTrades defaultConfig d).result.debug_info.trigger_type
        = (if specDrop d d.trades_[i] ≥ 40 / 100 then "stop_loss" else "pattern") ∧
      (processTrades defaultConfig d).detector.current_idx_ = i) ∧
    ((∀ (i : Nat) (h : i < d.trades_.length), d.current_idx_ ≤ i → ¬ fires d d.trades_[i]) →
      (processTrades defaultConfig d).result.rug_pulled = false ∧
      (processTrades defaultConfig d).detector.current_idx_ = d.trades_.length) := by
  constructor
  · intro i h hci hf hmin
    obtain ⟨r, hr, h1, h2, h3⟩ :=
      scanStep_some_of_fires d d.trades_[i] (getRecentTrades_self_not_empty d hs i h) hf
    have hloop := processLoop_fires defaultConfig (d.trades_.length - d.current_idx_) d 0 i h r
      (le_refl _) hci hr
      (fun j hj hcj hji => scanStep_none_of_not_fires d d.trades_[j]
        (getRecentTrades_self_not_empty d hs j hj) (hmin j hj hcj hji))
    rw [processTrades_of_not_empty defaultConfig d (trades_ne_nil_of_lt d i h), hloop]
    exact ⟨h1, h2, h3, rfl⟩
  · intro hnone
    by_cases hnil : d.trades_ = []
    · rw [processTrades_of_empty defaultConfig d hnil]
      refine ⟨rfl, ?_⟩
      rw [hnil] at hc ⊢
      simpa using hc
    · have hloop := processLoop_exhausted defaultConfig (d.trades_.length - d.current_idx_) d 0
        (le_refl _) hc
        (fun i h hci => scanStep_none_of_not_fires d d.trades_[i]
          (getRecentTrades_self_not_empty d hs i h) (hnone i h hci))
      rw [processTrades_of_not_empty defaultConfig d hnil, hloop]
      exact ⟨rfl, rfl⟩

theorem processTrades_stops_at_first_firing_trade_witness :
    SortedByTime decliningLog.trades_ ∧
      decliningLog.current_idx_ ≤ decliningLog.trades_.length ∧
      (processTrades defaultConfig decliningLog).result.rug_pulled = true ∧
      (processTrades defaultConfig decliningLog).result.timestamp
        = some (20 * ticksPerSecond) ∧
      (processTrades defaultConfig decliningLog).result.debug_info.trigger_type = "pattern" ∧
      (processTrades defaultConfig decliningLog).detector.current_idx_ = 2 := by
  have quiet : ∀ j : Fin decliningLog.trades_.length, j.val < 2 →
      ¬ fires decliningLog decliningLog.trades_[j.val] := by decide!
  have h := (processTrades_stops_at_first_firing_trade decliningLog (by decide!)
    (by decide!)).1 2 (by decide!) (by decide!) (by decide!)
    (fun j hj _ hji => quiet ⟨j, hj⟩ hji)
  exact ⟨by decide!, by decide!, h.1, h.2.1.trans (by decide!), h.2.2.1.trans (by decide!),
    h.2.2.2⟩

/-- C2: on a time-ordered log with a positive peak, when the trade at the
cursor has `drop = (peak - market_cap) / peak` at least `stop_loss_threshold`
(0.40 by default), `processTrades` returns `rug_pulled = true` with that trade's
timestamp, trigger `stop_loss`, `drop_percentage = drop * 100`, the peak and the
trade's market cap, and leaves the cursor on that trade, whatever the
volumes, the window and the confidence are. -/
theorem stop_loss_fast_path (config : DetectionConfig) (d : RugPullDetector)
    (hs : SortedByTime d.trades_) (h : d.current_idx_ < d.trades_.length)
    (hpeak : 0 < d.peak_mc_)
    (hdrop : (d.peak_mc_ - d.trades_[d.current_idx_].market_cap_sol) / d.peak_mc_
      ≥ config.stop_loss_threshold) :
    (processTrades config d).result.rug_pulled = true ∧
      (processTrades config d).result.timestamp = some d.trades_[d.current_idx_].timestamp ∧
      (processTrades config d).result.debug_info.trigger_type = "stop_loss" ∧
      (processTrades config d).result.debug_info.drop_percentage
        = (d.peak_mc_ - d.trades_[d.current_idx_].market_cap_sol) / d.peak_mc_ * 100 ∧
      (processTrades config d).result.debug_info.peak_market_cap = d.peak_mc_ ∧
      (processTrades config d).result.debug_info.current_market_cap
        = d.trades_[d.current_idx_].market_cap_sol ∧
      (processTrades config d).detector = d := by
  have hcd : currentDrop d.peak_mc_ d.trades_[d.current_idx_].market_cap_sol
      = (d.peak_mc_ - d.trades_[d.current_idx_].market_cap_sol) / d.peak_mc_ := by
    unfold currentDrop
    rw [if_pos hpeak]
  have hstep := scanStep_of_window_not_empty config d d.trades_[d.current_idx_]
    (getRecentTrades_self_not_empty d hs d.current_idx_ h)
  rw [hcd, if_pos hdrop] at hstep
  have hloop := processLoop_fires config (d.trades_.length - d.current_idx_) d 0
    d.current_idx_ h _ (le_refl _) (le_refl _) hstep (fun j _ hcj hji => by omega)
  rw [processTrades_of_not_empty config d (trades_ne_nil_of_lt d _ h), hloop]
  exact ⟨rfl, rfl, rfl, rfl, rfl, rfl, rfl⟩

theorem stop_loss_fast_path_witness :
    SortedByTime stopLossLog.trades_ ∧ stopLossLog.current_idx_ = 1 ∧
      stopLossLog.peak_mc_ = 100 ∧
      (processTrades defaultConfig stopLossLog).result.rug_pulled = true ∧
      (processTrades defaultConfig stopLossLog).result.timestamp = some ticksPerSecond ∧
      (processTrades defaultConfig stopLossLog).result.debug_info.trigger_type = "stop_loss" ∧
      (processTrades defaultConfig stopLossLog).result.debug_info.drop_percentage = 45 ∧
      (processTrades defaultConfig stopLossLog).result.debug_info.peak_market_cap = 100 ∧
      (processTrades defaultConfig stopLossLog).result.debug_info.current_market_cap = 55 := by
  have h := stop_loss_fast_path defaultConfig stopLossLog (by decide!) (by decide!)
    (by decide!) (by decide!)
  exact ⟨by decide!, by decide!, by decide!, h.1, h.2.1.trans (by decide!), h.2.2.1,
    h.2.2.2.1.trans (by decide!), h.2.2.2.2.1.trans (by decide!),
    h.2.2.2.2.2.1.trans (by decide!)⟩

theorem processLoop_no_detection (config : DetectionConfig) (fuel : Nat) (d : RugPullDetector)
    (calls : Nat) (hfuel : d.trades_.length - d.current_idx_ ≤ fuel)
    (hle : d.current_idx_ ≤ d.trades_.length)
    (hno : (processLoop config fuel d calls).result.rug_pulled = false) :
    processLoop config fuel d calls
      = ⟨{}, { d with current_idx_ := d.trades_.length },
          calls + (d.trades_.length - d.current_idx_)⟩ := by
  rcases processLoop_outcome config fuel d calls hfuel hle with ⟨_, hout⟩ | ⟨i, h, r, _, hr, _, hout⟩
  · exact hout
  · rw [hout] at hno
    have := scanStep_rug_pulled config d _ r hr
    simp only at hno
    rw [this] at hno
    cases hno

theorem processTrades_of_cursor_past_end (config : DetectionConfig) (d : RugPullDetector)
    (h : d.trades_.length ≤ d.current_idx_) : processTrades config d = ⟨{}, d, 0⟩ := by
  by_cases hnil : d.trades_ = []
  · exact processTrades_of_empty config d hnil
  · rw [processTrades_of_not_empty config d hnil]
    have h0 : d.trades_.length - d.current_idx_ = 0 := by omega
    rw [h0]
    rfl

/-- C9: when `processTrades` reports no detection, a second call with no trade
added in between returns the same no-detection result, leaves the detector as
the first call left it (the cursor at the number of trades, for a cursor that
started inside the log), and computes no window at all. -/
theorem second_scan_examines_nothing (config : DetectionConfig) (d : RugPullDetector)
    (hno : (processTrades config d).result.rug_pulled = false) :
    (processTrades config (processTrades config d).detector).result
        = (processTrades config d).result ∧
      (processTrades config (processTrades config d).detector).result.rug_pulled = false ∧
      (processTrades config (processTrades config d).detector).detector
        = (processTrades config d).detector ∧
      (d.current_idx_ ≤ d.trades_.length →
        (processTrades config d).detector.current_idx_ = d.trades_.length) ∧
      (processTrades config d).detector.trades_ = d.trades_ ∧
      (processTrades config (processTrades config d).detector).window_calls = 0 := by
  by_cases hle : d.current_idx_ < d.trades_.length
  · have hnil : d.trades_ ≠ [] := trades_ne_nil_of_lt d _ hle
    have h1 := processTrades_of_not_empty config d hnil
    rw [h1] at hno
    have h2 := processLoop_no_detection config _ d 0 (le_refl _) hle.le hno
    rw [← h1] at h2
    have hdet : (processTrades config d).detector
        = { d with current_idx_ := d.trades_.length } := by rw [h2]
    have hres : (processTrades config d).result = {} := by rw [h2]
    have h3 : processTrades config { d with current_idx_ := d.trades_.length }
        = ⟨{}, { d with current_idx_ := d.trades_.length }, 0⟩ :=
      processTrades_of_cursor_past_end config _ (le_refl _)
    rw [hdet, h3, hres]
    exact ⟨rfl, rfl, rfl, fun _ => rfl, rfl, rfl⟩
  · have h1 := processTrades_of_cursor_past_end config d (not_lt.mp hle)
    have hdet : (processTrades config d).detector = d := by rw [h1]
    rw [hdet]
    refine ⟨rfl, hno, hdet, fun h => by omega, rfl, ?_⟩
    rw [h1]

theorem second_scan_examines_nothing_witness :
    sparseLog.current_idx_ ≤ sparseLog.trades_.length ∧
      (processTrades defaultConfig sparseLog).result.rug_pulled = false ∧
      (processTrades defaultConfig sparseLog).window_calls = 4 ∧
      (processTrades defaultConfig (processTrades defaultConfig sparseLog).detector).window_calls
        = 0 ∧
      (processTrades defaultConfig sparseLog).detector.current_idx_ = 4 := by
  have h := second_scan_examines_nothing defaultConfig sparseLog (by decide!)
  exact ⟨by decide!, by decide!, by decide!, h.2.2.2.2.2,
    (h.2.2.2.1 (by decide!)).trans (by decide!)⟩

/-! ## Flat and rising series -/

theorem addTrade_peak_time_of_gt (d : RugPullDetector) (t : Trade)
    (h : t.market_cap_sol > d.peak_mc_) : (addTrade d t).peak_time_ = t.timestamp := by
  simp only [addTrade]
  split_ifs <;> rfl

theorem addTrade_peak_time_of_le (d : RugPullDetector) (t : Trade)
    (h : t.market_cap_sol ≤ d.peak_mc_) : (addTrade d t).peak_time_ = d.peak_time_ := by
  have h' : ¬ t.market_cap_sol > d.peak_mc_ := not_lt.mpr h
  simp only [addTrade]
  split_ifs <;> rfl

theorem addTrades_append_singleton (d : RugPullDetector) (l : List Trade) (a : Trade) :
    addTrades d (l ++ [a]) = addTrade (addTrades d l) a := by
  unfold addTrades
  rw [List.foldl_append]
  rfl

theorem fresh_peak_attained (now : Int) (l : List Trade) :
    (addTrades (RugPullDetector.new now) l).peak_mc_ = 0 ∨
      ∃ t ∈ l, t.market_cap_sol = (addTrades (RugPullDetector.new now) l).peak_mc_ :=
  addTrades_peak_attained (RugPullDetector.new now) l

theorem peak_time_bounds_lower_caps (now : Int) (l : List Trade) :
    SortedByTime l → NonDecreasingCaps l → (∀ t ∈ l, 0 ≤ t.market_cap_sol) →
    ∀ t ∈ l, t.market_cap_sol < (addTrades (RugPullDetector.new now) l).peak_mc_ →
      t.timestamp ≤ (addTrades (RugPullDetector.new now) l).peak_time_ := by
  induction l using List.reverseRecOn with
  | nil => intro _ _ _ t ht; simp at ht
  | append_singleton l a ih =>
    intro hs hm hnn t ht hlt
    have hs' := List.pairwise_append.mp hs
    have hm' := List.pairwise_append.mp hm
    rw [addTrades_append_singleton] at hlt ⊢
    by_cases hgt : a.market_cap_sol > (addTrades (RugPullDetector.new now) l).peak_mc_
    · rw [addTrade_peak_time_of_gt _ _ hgt]
      rcases List.mem_append.mp ht with hl | ha
      · exact hs'.2.2 t hl a (List.mem_singleton_self a)
      · rw [List.mem_singleton.mp ha]
    · have hle := not_lt.mp hgt
      rw [addTrade_peak_time_of_le _ _ hle]
      rw [addTrade_peak_mc, max_eq_left hle] at hlt
      rcases List.mem_append.mp ht with hl | ha
      · exact ih hs'.1 hm'.1 (fun x hx => hnn x (List.mem_append_left _ hx)) t hl hlt
      · exfalso
        have hta : t = a := List.mem_singleton.mp ha
        subst hta
        rcases fresh_peak_attained now l with h0 | ⟨x, hx, hxe⟩
        · have := hnn t ht
          rw [h0] at hlt
          exact absurd hlt (not_lt.mpr this)
        · have := hm'.2.2 x hx t (List.mem_singleton_self t)
          rw [← hxe] at hlt
          exact absurd hlt (not_lt.mpr this)

theorem pairwise_le_getLast (l : List Trade) (hne : l ≠ []) (hm : NonDecreasingCaps l) :
    ∀ t ∈ l, t.market_cap_sol ≤ (l.getLast hne).market_cap_sol := by
  intro t ht
  have hsplit := List.dropLast_append_getLast hne
  rw [← hsplit] at ht hm
  rcases List.mem_append.mp ht with h1 | h2
  · exact (List.pairwise_append.mp hm).2.2 t h1 _ (List.mem_singleton_self _)
  · rw [List.mem_singleton.mp h2]

theorem peak_eq_last_of_nonDecreasing (now : Int) (l : List Trade) (hne : l ≠ [])
    (hm : NonDecreasingCaps l) (hnn : ∀ t ∈ l, 0 ≤ t.market_cap_sol) :
    (addTrades (RugPullDetector.new now) l).peak_mc_ = (l.getLast hne).market_cap_sol := by
  have hlast : l.getLast hne ∈ l := List.getLast_mem hne
  have hge := addTrades_peak_ge_mem (RugPullDetector.new now) l _ hlast
  apply le_antisymm _ hge
  rcases fresh_peak_attained now l with h0 | ⟨x, hx, hxe⟩
  · rw [h0]; exact hnn _ hlast
  · rw [← hxe]; exact pairwise_le_getLast l hne hm x hx

theorem durationSeconds_nonpos (x : Int) (hx : x ≤ 0) : durationSeconds x ≤ 0 := by
  unfold durationSeconds
  have h1 : x = -(-x) := by omega
  rw [h1, Int.neg_tdiv]
  have h2 := Int.tdiv_nonneg (a := -x) (b := ticksPerSecond) (by omega) ticksPerSecond_pos.le
  omega

theorem priceChanges_nonneg (w : List Trade) (hm : NonDecreasingCaps w) :
    ∀ x ∈ priceChanges w, 0 ≤ x := by
  induction w with
  | nil => intro x hx; simp [priceChanges] at hx
  | cons a l ih =>
    cases l with
    | nil => intro x hx; simp [priceChanges] at hx
    | cons b rest =>
      intro x hx
      have hm' := List.pairwise_cons.mp hm
      simp only [priceChanges, List.mem_cons] at hx
      rcases hx with rfl | hx
      · have := hm'.1 b (List.mem_cons_self _ _)
        linarith
      · exact ih hm'.2 x hx

theorem countRecentDrops_eq_zero (pc : List ℚ) (h : ∀ x ∈ pc, 0 ≤ x) :
    countRecentDrops pc = 0 := by
  unfold countRecentDrops
  rw [List.countP_eq_zero]
  intro x hx
  have hmem : x ∈ pc := List.mem_reverse.mp (List.mem_of_mem_take hx)
  simp only [decide_eq_true_eq, not_lt]
  exact h x hmem

theorem pattern_below_threshold_of_nonDecreasing (w : List Trade) (hm : NonDecreasingCaps w)
    (thr : ℚ) (hthr : 0 < thr) :
    (computeWindowStats w).pattern_strength.ge thr = false := by
  have hcube : ¬ thr ^ 3 ≤ 0 := not_le.mpr (pow_pos hthr 3)
  unfold computeWindowStats
  split_ifs with hlen
  · simp [CubeRoot.ge, hcube]
  · simp only [countRecentDrops_eq_zero _ (priceChanges_nonneg w hm), CubeRoot.ge, strengthBase]
    simp [hcube]

theorem getRecentTrades_sublist (d : RugPullDetector) (now : Int) :
    (getRecentTrades d now).Sublist d.trades_ := by
  unfold getRecentTrades
  exact (List.take_sublist _ _).trans (List.drop_sublist _ _)

theorem specDrop_eq_zero_of_cap_eq_peak (d : RugPullDetector) (t : Trade)
    (h : t.market_cap_sol = d.peak_mc_) : specDrop d t = 0 := by
  unfold specDrop
  split_ifs
  · rw [h]; simp
  · rfl

theorem confidence_low_without_price_and_pattern (drop time_diff : ℚ) (pattern : CubeRoot)
    (volume : ℚ) (hdrop : drop < defaultConfig.peak_drop_threshold)
    (hpat : pattern.ge defaultConfig.pattern_strength_threshold = false) :
    calculateConfidence drop time_diff pattern volume defaultConfig ≤ 3 / 10 := by
  have hv1 := indicator_le_one (decide (volume ≥ defaultConfig.volume_spike_threshold))
  have hp : indicator (decide (drop ≥ defaultConfig.peak_drop_threshold)) = 0 := by
    unfold indicator
    rw [if_neg]
    simpa using hdrop
  have hq : indicator (pattern.ge defaultConfig.pattern_strength_threshold) = 0 := by
    rw [hpat]; rfl
  unfold calculateConfidence
  simp only [hp, hq, mul_zero, zero_mul, zero_add, add_zero]
  linarith

theorem fresh_trades (now : Int) (l : List Trade) :
    (addTrades (RugPullDetector.new now) l).trades_ = l := by
  rw [addTrades_trades]
  rfl

theorem fresh_current_idx (now : Int) (l : List Trade) :
    (addTrades (RugPullDetector.new now) l).current_idx_ = 0 := by
  rw [addTrades_current_idx]
  rfl

theorem fires_iff_stop_loss_of_nonDecreasing (now : Int) (l : List Trade)
    (hs : SortedByTime l) (hm : NonDecreasingCaps l) (hnn : ∀ t ∈ l, 0 ≤ t.market_cap_sol)
    (t : Trade) (ht : t ∈ l) :
    fires (addTrades (RugPullDetector.new now) l) t
      ↔ specDrop (addTrades (RugPullDetector.new now) l) t ≥ 40 / 100 := by
  constructor
  · rintro (h | ⟨_, htime, hconf⟩)
    · exact h
    · exfalso
      have hpos : ¬ (t.timestamp - (addTrades (RugPullDetector.new now) l).peak_time_ ≤ 0) := by
        intro hle
        have := durationSeconds_nonpos _ hle
        unfold timeSincePeak at htime
        omega
      have hcap : ¬ (t.market_cap_sol < (addTrades (RugPullDetector.new now) l).peak_mc_) := by
        intro hlt
        have := peak_time_bounds_lower_caps now l hs hm hnn t ht hlt
        omega
      have hge := addTrades_peak_ge_mem (RugPullDetector.new now) l t ht
      have hdrop := specDrop_eq_zero_of_cap_eq_peak (addTrades (RugPullDetector.new now) l) t
        (le_antisymm hge (not_lt.mp hcap))
      have hsub : NonDecreasingCaps
          (getRecentTrades (addTrades (RugPullDetector.new now) l) t.timestamp) := by
        have hsl := getRecentTrades_sublist (addTrades (RugPullDetector.new now) l) t.timestamp
        rw [fresh_trades] at hsl
        exact List.Pairwise.sublist hsl hm
      have hpat := pattern_below_threshold_of_nonDecreasing _ hsub
        defaultConfig.pattern_strength_threshold (by decide!)
      have hlow := confidence_low_without_price_and_pattern
        (specDrop (addTrades (RugPullDetector.new now) l) t)
        (timeSincePeak (addTrades (RugPullDetector.new now) l) t : ℚ) _
        (computeWindowStats
          (getRecentTrades (addTrades (RugPullDetector.new now) l) t.timestamp)).volume_trend
        (by rw [hdrop]; decide!) hpat
      unfold confidenceAt at hconf
      have : (672 : ℚ) / 1000 ≤ 3 / 10 := le_trans hconf hlow
      norm_num at this
  · intro h
    exact Or.inl h

/-- C3, as the code has it: for a non-empty trade sequence with non-decreasing
timestamps and non-negative, non-decreasing market caps, fed into a fresh
detector, the tracked peak is the market cap of the final trade; and
`processTrades` with the default configuration returns `rug_pulled = false`
exactly when every trade's drop from that final peak is below 0.40.  A
detection on such a series is always a `stop_loss`. -/
theorem rising_series_detected_only_by_stop_loss (now : Int) (trades : List Trade)
    (hne : trades ≠ []) (hs : SortedByTime trades) (hm : NonDecreasingCaps trades)
    (hnn : ∀ t ∈ trades, 0 ≤ t.market_cap_sol) :
    (addTrades (RugPullDetector.new now) trades).peak_mc_
        = (trades.getLast hne).market_cap_sol ∧
      ((processTrades defaultConfig (addTrades (RugPullDetector.new now) trades)).result.rug_pulled
          = false
        ↔ ∀ t ∈ trades, specDrop (addTrades (RugPullDetector.new now) trades) t < 40 / 100) ∧
      ((processTrades defaultConfig (addTrades (RugPullDetector.new now) trades)).result.rug_pulled
          = true →
        (processTrades defaultConfig
          (addTrades (RugPullDetector.new now) trades)).result.debug_info.trigger_type
          = "stop_loss") := by
  refine ⟨peak_eq_last_of_nonDecreasing now trades hne hm hnn, ?_⟩
  have htr := fresh_trades now trades
  have hidx := fresh_current_idx now trades
  generalize hd : addTrades (RugPullDetector.new now) trades = d at htr hidx
  have hfires : ∀ t ∈ d.trades_, fires d t ↔ specDrop d t ≥ 40 / 100 := by
    intro t ht
    rw [htr] at ht
    rw [← hd]
    exact fires_iff_stop_loss_of_nonDecreasing now trades hs hm hnn t ht
  have hsd : SortedByTime d.trades_ := by rw [htr]; exact hs
  have hnil : d.trades_ ≠ [] := by rw [htr]; exact hne
  rw [processTrades_of_not_empty defaultConfig d hnil]
  rcases processLoop_outcome defaultConfig (d.trades_.length - d.current_idx_) d 0 (le_refl _)
    (by omega) with ⟨hnone, hout⟩ | ⟨i, hi, r, _, hr, _, hout⟩
  · rw [hout]
    refine ⟨⟨fun _ => ?_, fun _ => rfl⟩, fun h => by cases h⟩
    intro t ht
    rw [← htr] at ht
    obtain ⟨i, hi, rfl⟩ := List.mem_iff_getElem.mp ht
    by_contra hcon
    have hf : fires d d.trades_[i] := (hfires _ (List.getElem_mem hi)).mpr (not_lt.mp hcon)
    obtain ⟨r, hr, _⟩ := scanStep_some_of_fires d d.trades_[i]
      (getRecentTrades_self_not_empty d hsd i hi) hf
    rw [hnone i hi (by omega)] at hr
    cases hr
  · rw [hout]
    have hrp := scanStep_rug_pulled defaultConfig d _ r hr
    have hf : fires d d.trades_[i] := by
      by_contra hcon
      rw [scanStep_none_of_not_fires d d.trades_[i]
        (getRecentTrades_self_not_empty d hsd i hi) hcon] at hr
      cases hr
    have hdrop := (hfires _ (List.getElem_mem hi)).mp hf
    obtain ⟨r', hr', _, _, htrig⟩ := scanStep_some_of_fires d d.trades_[i]
      (getRecentTrades_self_not_empty d hsd i hi) hf
    rw [hr] at hr'
    injection hr' with hrr
    subst hrr
    rw [if_pos hdrop] at htrig
    refine ⟨⟨fun h => ?_, fun h => ?_⟩, fun _ => htrig⟩
    · simp only at h
      rw [hrp] at h
      cases h
    · exfalso
      have := h d.trades_[i] (by rw [← htr]; exact List.getElem_mem hi)
      exact absurd hdrop (not_le.mpr this)

theorem rising_series_detected_only_by_stop_loss_witness :
    gentleRise ≠ [] ∧ SortedByTime gentleRise ∧ NonDecreasingCaps gentleRise ∧
      (∀ t ∈ gentleRise, 0 ≤ t.market_cap_sol) ∧
      (addTrades (RugPullDetector.new 7) gentleRise).peak_mc_ = 100 ∧
      (processTrades defaultConfig (addTrades (RugPullDetector.new 7) gentleRise)).result.rug_pulled
        = false := by
  have h := rising_series_detected_only_by_stop_loss 7 gentleRise (by decide!) (by decide!)
    (by decide!) (by decide!)
  exact ⟨by decide!, by decide!, by decide!, by decide!, h.1.trans (by decide!),
    h.2.1.mpr (by decide!)⟩

/-- C3 as stated fails: the rising series of market caps 10, 100 at 0 s, 1 s
is reported as a rug pull, by `stop_loss` at its first trade, whose drop from
the final peak 100 is 0.9. -/
theorem rising_series_flagged_as_rug_pull :
    SortedByTime risingLog.trades_ ∧ NonDecreasingCaps risingLog.trades_ ∧
      (∀ t ∈ risingLog.trades_, 0 ≤ t.market_cap_sol) ∧
      risingLog.peak_mc_ = 100 ∧
      (processTrades defaultConfig risingLog).result.rug_pulled = true ∧
      (processTrades defaultConfig risingLog).result.timestamp = some 0 ∧
      (processTrades defaultConfig risingLog).result.debug_info.trigger_type = "stop_loss" ∧
      (processTrades defaultConfig risingLog).result.debug_info.drop_percentage = 90 := by
  decide!

/-! ## Gradual decline -/

theorem gradualDecline_state (now : Int) (v0 v1 v2 v3 v4 v5 : ℚ) :
    addTrades (RugPullDetector.new now) (gradualDecline v0 v1 v2 v3 v4 v5)
      = ⟨gradualDecline v0 v1 v2 v3 v4 v5, 100, 0, 0, 0⟩ := by
  simp [addTrades, addTrade, gradualDecline, RugPullDetector.new]
  norm_num

theorem confidence_with_both_indicators (drop time_diff : ℚ) (pattern : CubeRoot)
    (volume : ℚ) (hdrop : drop ≥ 100 / 1000) (hpat : pattern.ge (457 / 1000) = true)
    (hvol : volume ≥ 1244 / 1000) :
    calculateConfidence drop time_diff pattern volume defaultConfig
      = 4 / 10 * max 0 (1 - time_diff / 105) + 6 / 10 := by
  have h1 : defaultConfig.peak_drop_threshold = 100 / 1000 := rfl
  have h2 : defaultConfig.pattern_strength_threshold = 457 / 1000 := rfl
  have h3 : defaultConfig.volume_spike_threshold = 1244 / 1000 := rfl
  have h4 : ((defaultConfig.time_from_peak_threshold : Int) : ℚ) = 105 := by
    have : defaultConfig.time_from_peak_threshold = 105 := rfl
    rw [this]; norm_num
  unfold calculateConfidence
  simp only [h1, h2, h3, h4, hpat, indicator, decide_eq_true hdrop, decide_eq_true hvol, if_true]
  ring

theorem scanStep_pattern_of_small_drop (config : DetectionConfig) (d : RugPullDetector)
    (t : Trade) (r : DetectionResult) (h : scanStep config d t = some r)
    (hdrop : currentDrop d.peak_mc_ t.market_cap_sol < config.stop_loss_threshold) :
    r.debug_info.trigger_type = "pattern" ∧ r.debug_info.confidence ≥ config.min_confidence_score := by
  simp only [scanStep] at h
  split_ifs at h with h1 h2 h3 h4 h5
  · exact absurd h2 (not_le.mpr hdrop)
  · injection h with h'
    rw [← h']
    exact ⟨rfl, h5⟩

theorem gradualDecline_sorted (v0 v1 v2 v3 v4 v5 : ℚ) :
    SortedByTime (gradualDecline v0 v1 v2 v3 v4 v5) := by
  simp [SortedByTime, gradualDecline, ticksPerSecond]

theorem gradualDecline_late_trade (v0 v1 v2 v3 v4 v5 : ℚ) (t : Trade)
    (ht : t ∈ gradualDecline v0 v1 v2 v3 v4 v5)
    (htime : 20 ≤ durationSeconds (t.timestamp - 0)) :
    durationSeconds (t.timestamp - 0) ≤ 50 ∧ t.market_cap_sol ≤ 90 := by
  simp only [gradualDecline, List.mem_cons, List.mem_singleton, List.not_mem_nil, or_false] at ht
  have e0 : durationSeconds (0 - 0) = 0 := by decide
  have e1 : durationSeconds (10 * ticksPerSecond - 0) = 10 := by decide
  have e2 : durationSeconds (20 * ticksPerSecond - 0) = 20 := by decide
  have e3 : durationSeconds (30 * ticksPerSecond - 0) = 30 := by decide
  have e4 : durationSeconds (40 * ticksPerSecond - 0) = 40 := by decide
  have e5 : durationSeconds (50 * ticksPerSecond - 0) = 50 := by decide
  rcases ht with rfl | rfl | rfl | rfl | rfl | rfl
  · simp only [e0] at htime; omega
  · simp only [e1] at htime; omega
  · simp only [e2]; norm_num
  · simp only [e3]; norm_num
  · simp only [e4]; norm_num
  · simp only [e5]; norm_num

theorem gradualDecline_cap_bounds (v0 v1 v2 v3 v4 v5 : ℚ) (t : Trade)
    (ht : t ∈ gradualDecline v0 v1 v2 v3 v4 v5) :
    75 ≤ t.market_cap_sol ∧ t.market_cap_sol ≤ 100 := by
  simp only [gradualDecline, List.mem_cons, List.mem_singleton, List.not_mem_nil, or_false] at ht
  rcases ht with rfl | rfl | rfl | rfl | rfl | rfl <;> norm_num

theorem window_long_of_pattern (w : List Trade) (thr : ℚ) (hthr : 0 < thr)
    (h : (computeWindowStats w).pattern_strength.ge thr = true) : w.length > 1 := by
  by_contra hcon
  have hcube : ¬ thr ^ 3 ≤ 0 := not_le.mpr (pow_pos hthr 3)
  unfold computeWindowStats at h
  rw [if_pos (by omega)] at h
  simp [CubeRoot.ge, hcube] at h

/-- C4, as the code has it: in the gradual-decline scenario (market caps 100,
95, 90, 85, 80, 75 at 0 s, 10 s, ..., 50 s, any volumes), if at some trade at
least 20 s after the peak (the first one whose drop reaches 0.10) the
statistics of its window satisfy `volume_trend ≥ 1.244` and
`pattern_strength ≥ 0.457`, then `processTrades` with the default
configuration returns `rug_pulled = true`, trigger `pattern` and a confidence
of at least 0.672. -/
theorem gradual_decline_detected_by_pattern (now : Int) (v0 v1 v2 v3 v4 v5 : ℚ) (t : Trade)
    (ht : t ∈ gradualDecline v0 v1 v2 v3 v4 v5)
    (htime : 20 ≤ timeSincePeak
      (addTrades (RugPullDetector.new now) (gradualDecline v0 v1 v2 v3 v4 v5)) t)
    (hvol : (computeWindowStats (getRecentTrades
      (addTrades (RugPullDetector.new now) (gradualDecline v0 v1 v2 v3 v4 v5))
      t.timestamp)).volume_trend ≥ 1244 / 1000)
    (hpat : (computeWindowStats (getRecentTrades
      (addTrades (RugPullDetector.new now) (gradualDecline v0 v1 v2 v3 v4 v5))
      t.timestamp)).pattern_strength.ge (457 / 1000) = true) :
    (processTrades defaultConfig
        (addTrades (RugPullDetector.new now)
          (gradualDecline v0 v1 v2 v3 v4 v5))).result.rug_pulled = true ∧
      (processTrades defaultConfig
        (addTrades (RugPullDetector.new now)
          (gradualDecline v0 v1 v2 v3 v4 v5))).result.debug_info.trigger_type = "pattern" ∧
      (processTrades defaultConfig
        (addTrades (RugPullDetector.new now)
          (gradualDecline v0 v1 v2 v3 v4 v5))).result.debug_info.confidence ≥ 672 / 1000 := by
  rw [gradualDecline_state] at htime hvol hpat ⊢
  generalize hd : (⟨gradualDecline v0 v1 v2 v3 v4 v5, 100, 0, 0, 0⟩ : RugPullDetector) = d
    at htime hvol hpat ⊢
  have htr : d.trades_ = gradualDecline v0 v1 v2 v3 v4 v5 := by rw [← hd]
  have hpk : d.peak_mc_ = 100 := by rw [← hd]
  have hpt : d.peak_time_ = 0 := by rw [← hd]
  have hidx : d.current_idx_ = 0 := by rw [← hd]
  have hsd : SortedByTime d.trades_ := by rw [htr]; exact gradualDecline_sorted _ _ _ _ _ _
  have htime' : 20 ≤ durationSeconds (t.timestamp - 0) := by
    unfold timeSincePeak at htime
    rw [hpt] at htime
    exact htime
  obtain ⟨hle50, hcap90⟩ := gradualDecline_late_trade v0 v1 v2 v3 v4 v5 t ht htime'
  have hdrop : specDrop d t ≥ 100 / 1000 := by
    unfold specDrop
    rw [hpk, if_pos (by norm_num)]
    linarith
  have hlong := window_long_of_pattern _ (457 / 1000) (by norm_num) hpat
  have hconf : confidenceAt d t ≥ 672 / 1000 := by
    unfold confidenceAt
    rw [confidence_with_both_indicators _ _ _ _ hdrop hpat hvol]
    have hts : ((timeSincePeak d t : Int) : ℚ) ≤ 50 := by
      unfold timeSincePeak
      rw [hpt]
      exact_mod_cast hle50
    have hmax := le_max_right (0 : ℚ) (1 - ((timeSincePeak d t : Int) : ℚ) / 105)
    linarith
  have hfire : fires d t := Or.inr ⟨hlong, by omega, hconf⟩
  have htd : t ∈ d.trades_ := by rw [htr]; exact ht
  obtain ⟨i, hi, hit⟩ := List.mem_iff_getElem.mp htd
  have hnil : d.trades_ ≠ [] := trades_ne_nil_of_lt d i hi
  rw [processTrades_of_not_empty defaultConfig d hnil]
  rcases processLoop_outcome defaultConfig (d.trades_.length - d.current_idx_) d 0 (le_refl _)
    (by omega) with ⟨hnone, _⟩ | ⟨j, hj, r, _, hr, _, hout⟩
  · exfalso
    obtain ⟨r, hr, _⟩ := scanStep_some_of_fires d d.trades_[i]
      (getRecentTrades_self_not_empty d hsd i hi) (by rw [hit]; exact hfire)
    rw [hnone i hi (by omega)] at hr
    cases hr
  · rw [hout]
    have hcaps := gradualDecline_cap_bounds v0 v1 v2 v3 v4 v5 d.trades_[j]
      (by rw [← htr]; exact List.getElem_mem hj)
    have hsmall : currentDrop d.peak_mc_ d.trades_[j].market_cap_sol
        < defaultConfig.stop_loss_threshold := by
      have hsl : defaultConfig.stop_loss_threshold = 40 / 100 := rfl
      unfold currentDrop
      rw [hpk, if_pos (by norm_num), hsl]
      linarith [hcaps.1]
    have hres := scanStep_pattern_of_small_drop defaultConfig d _ r hr hsmall
    exact ⟨scanStep_rug_pulled defaultConfig d _ r hr, hres.1, hres.2⟩

theorem gradual_decline_detected_by_pattern_witness :
    (⟨20 * ticksPerSecond, 90, 4⟩ : Trade) ∈ gradualDecline 0 2 4 2 2 2 ∧
      timeSincePeak decliningLog ⟨20 * ticksPerSecond, 90, 4⟩ = 20 ∧
      (computeWindowStats (getRecentTrades decliningLog (20 * ticksPerSecond))).volume_trend = 2 ∧
      (processTrades defaultConfig decliningLog).result.rug_pulled = true ∧
      (processTrades defaultConfig decliningLog).result.debug_info.trigger_type = "pattern" ∧
      (processTrades defaultConfig decliningLog).result.debug_info.confidence ≥ 672 / 1000 :=
  ⟨by decide!, by decide!, by decide!,
    gradual_decline_detected_by_pattern 7 0 2 4 2 2 2 ⟨20 * ticksPerSecond, 90, 4⟩ (by decide!)
      (by decide!) (by decide!) (by decide!)⟩

/-- C4 as stated fails: with volumes 0, 2, 2, 2, 2, 2 the trade at 10 s, which
is at least 5 s after the peak, has `volume_trend = 2 ≥ 1.244` and
`pattern_strength ≥ 0.457`, yet its drop 0.05 is below `peak_drop_threshold`,
its confidence is 0.6, the later windows have `volume_trend < 1.244`, and the
scan ends without a detection. -/
theorem gradual_decline_early_spike_undetected :
    (⟨10 * ticksPerSecond, 95, 2⟩ : Trade) ∈ earlySpikeLog.trades_ ∧
      earlySpikeLog.trades_ = gradualDecline 0 2 2 2 2 2 ∧
      timeSincePeak earlySpikeLog ⟨10 * ticksPerSecond, 95, 2⟩ ≥ 5 ∧
      (computeWindowStats
        (getRecentTrades earlySpikeLog (10 * ticksPerSecond))).volume_trend ≥ 1244 / 1000 ∧
      (computeWindowStats
        (getRecentTrades earlySpikeLog (10 * ticksPerSecond))).pattern_strength.ge (457 / 1000)
        = true ∧
      confidenceAt earlySpikeLog ⟨10 * ticksPerSecond, 95, 2⟩ = 6 / 10 ∧
      (processTrades defaultConfig earlySpikeLog).result.rug_pulled = false := by
  decide!

/-! ## Pattern strength and velocity -/

theorem volumeChanges_nonneg (w : List Trade) : ∀ x ∈ volumeChanges w, 0 ≤ x := by
  induction w with
  | nil => intro x hx; simp [volumeChanges] at hx
  | cons a l ih =>
    cases l with
    | nil => intro x hx; simp [volumeChanges] at hx
    | cons b rest =>
      intro x hx
      simp only [volumeChanges, List.mem_cons] at hx
      rcases hx with rfl | hx
      · exact abs_nonneg _
      · exact ih x hx

theorem meanOrZero_nonneg (xs : List ℚ) (h : ∀ x ∈ xs, 0 ≤ x) : 0 ≤ meanOrZero xs := by
  unfold meanOrZero
  split_ifs
  · exact le_refl _
  · exact div_nonneg (List.sum_nonneg h) (Nat.cast_nonneg _)

theorem computeWindowStats_of_long (w : List Trade) (hn : 1 < w.length) :
    computeWindowStats w =
      { volume_trend := meanOrZero (volumeChanges w)
        price_velocity := meanOrZero (priceChanges w)
        consecutive_drops := ((countRecentDrops (priceChanges w) : Nat) : Int)
        pattern_strength :=
          ⟨strengthBase ((countRecentDrops (priceChanges w) : Nat) : Int) w.length
            (meanOrZero (volumeChanges w)) (meanOrZero (priceChanges w))⟩ } := by
  unfold computeWindowStats
  rw [if_neg (by omega)]

theorem strengthBase_nonneg (cd : Int) (n : Nat) (vt pv : ℚ) (hcd : 0 ≤ cd) (hvt : 0 ≤ vt) :
    0 ≤ strengthBase cd n vt pv := by
  unfold strengthBase
  have h1 : (0 : ℚ) ≤ (cd : ℚ) / (n : ℚ) :=
    div_nonneg (by exact_mod_cast hcd) (Nat.cast_nonneg _)
  have h2 : (0 : ℚ) ≤ 1 + min vt 2 := by
    have : (0 : ℚ) ≤ min vt 2 := le_min hvt (by norm_num)
    linarith
  have h3 : (0 : ℚ) ≤ 1 + |pv| := by
    have := abs_nonneg pv
    linarith
  exact mul_nonneg (mul_nonneg h1 h2) h3

/-- C11: for every window with more than one trade, the number under the cube
root of `pattern_strength` is the product
`(consecutive_drops / window length) * (1 + min(volume_trend, 2)) * (1 + |price_velocity|)`
of the returned statistics and is never negative, so `pattern_strength` is a
non-negative number (it compares `≥ 0`). -/
theorem pattern_strength_nonneg (w : List Trade) (hn : 1 < w.length) :
    (computeWindowStats w).pattern_strength.radicand
        = ((computeWindowStats w).consecutive_drops : ℚ) / (w.length : ℚ)
          * (1 + min (computeWindowStats w).volume_trend 2)
          * (1 + |(computeWindowStats w).price_velocity|) ∧
      0 ≤ (computeWindowStats w).pattern_strength.radicand ∧
      (computeWindowStats w).pattern_strength.ge 0 = true := by
  rw [computeWindowStats_of_long w hn]
  have hnn : 0 ≤ strengthBase ((countRecentDrops (priceChanges w) : Nat) : Int) w.length
      (meanOrZero (volumeChanges w)) (meanOrZero (priceChanges w)) :=
    strengthBase_nonneg _ _ _ _ (Int.natCast_nonneg _)
      (meanOrZero_nonneg _ (volumeChanges_nonneg w))
  refine ⟨rfl, hnn, ?_⟩
  simp only [CubeRoot.ge, decide_eq_true_eq]
  exact ⟨hnn, by rw [zero_pow (by norm_num)]; exact hnn⟩

theorem pattern_strength_nonneg_witness :
    1 < zigzagWindow.length ∧
      (computeWindowStats zigzagWindow).pattern_strength.radicand = 20 / 9 ∧
      0 ≤ (computeWindowStats zigzagWindow).pattern_strength.radicand := by
  have h := pattern_strength_nonneg zigzagWindow (by decide)
  exact ⟨by decide, by decide!, h.2.1⟩

theorem volumeChanges_length (w : List Trade) : (volumeChanges w).length = w.length - 1 := by
  induction w with
  | nil => rfl
  | cons a l ih =>
    cases l with
    | nil => rfl
    | cons b rest =>
      simp only [volumeChanges, List.length_cons] at ih ⊢
      omega

theorem volumeChanges_getD (w : List Trade) (j : Nat) (hj : j + 1 < w.length) :
    (volumeChanges w).getD j 0 = |volAt w (j + 1) - volAt w j| := by
  induction w generalizing j with
  | nil => simp at hj
  | cons a l ih =>
    cases l with
    | nil => simp at hj
    | cons b rest =>
      cases j with
      | zero => simp [volumeChanges, volAt]
      | succ k =>
        have hk : k + 1 < (b :: rest).length := by simpa using hj
        have := ih k hk
        simpa [volumeChanges, volAt] using this

theorem priceChanges_eq_map_range (w : List Trade) :
    priceChanges w
      = (List.range (w.length - 1)).map (fun i => mcAt w (i + 1) - mcAt w i) := by
  apply List.ext_getElem
  · simp [priceChanges_length]
  · intro i h1 h2
    have hi : i + 1 < w.length := by
      rw [priceChanges_length] at h1; omega
    have := priceChanges_getD w i hi
    rw [List.getD_eq_getElem _ _ h1] at this
    simp [this]

theorem volumeChanges_eq_map_range (w : List Trade) :
    volumeChanges w
      = (List.range (w.length - 1)).map (fun i => |volAt w (i + 1) - volAt w i|) := by
  apply List.ext_getElem
  · simp [volumeChanges_length]
  · intro i h1 h2
    have hi : i + 1 < w.length := by
      rw [volumeChanges_length] at h1; omega
    have := volumeChanges_getD w i hi
    rw [List.getD_eq_getElem _ _ h1] at this
    simp [this]

theorem priceChanges_sum (w : List Trade) (hne : w ≠ []) :
    (priceChanges w).sum = mcAt w (w.length - 1) - mcAt w 0 := by
  induction w with
  | nil => exact absurd rfl hne
  | cons a l ih =>
    cases l with
    | nil => simp [priceChanges, mcAt]
    | cons b rest =>
      have hrec := ih (by simp)
      have e1 : mcAt (a :: b :: rest) ((a :: b :: rest).length - 1)
          = mcAt (b :: rest) ((b :: rest).length - 1) := by
        simp [mcAt]
      have e2 : mcAt (a :: b :: rest) 0 = a.market_cap_sol := by simp [mcAt]
      have e3 : mcAt (b :: rest) 0 = b.market_cap_sol := by simp [mcAt]
      simp only [priceChanges, List.sum_cons]
      rw [hrec, e1, e2, e3]
      ring

theorem meanOrZero_of_ne_nil (xs : List ℚ) (h : xs ≠ []) :
    meanOrZero xs = xs.sum / (xs.length : ℚ) := by
  unfold meanOrZero
  cases xs with
  | nil => exact absurd rfl h
  | cons a l => rfl

/-- C20: for a window of `n ≥ 2` trades, `price_velocity` is the arithmetic mean
of the `n - 1` adjacent price changes and so equals
`(mc[n - 1] - mc[0]) / (n - 1)`; it is negative exactly when the last market
cap is below the first; and `volume_trend` is the mean of the absolute adjacent
volume changes and is never negative. -/
theorem price_velocity_is_net_change (w : List Trade) (hn : 2 ≤ w.length) :
    (computeWindowStats w).price_velocity = specPriceVelocity w ∧
      (computeWindowStats w).price_velocity
        = (mcAt w (w.length - 1) - mcAt w 0) / ((w.length - 1 : Nat) : ℚ) ∧
      ((computeWindowStats w).price_velocity < 0 ↔ mcAt w (w.length - 1) < mcAt w 0) ∧
      (computeWindowStats w).volume_trend = specVolumeTrend w ∧
      0 ≤ (computeWindowStats w).volume_trend := by
  have hne : w ≠ [] := by
    intro h; rw [h] at hn; simp at hn
  have hpl := priceChanges_length w
  have hvl := volumeChanges_length w
  have hpne : priceChanges w ≠ [] := by
    intro h; rw [h] at hpl; simp at hpl; omega
  have hvne : volumeChanges w ≠ [] := by
    intro h; rw [h] at hvl; simp at hvl; omega
  rw [computeWindowStats_of_long w (by omega)]
  simp only
  have hpv : meanOrZero (priceChanges w)
      = (mcAt w (w.length - 1) - mcAt w 0) / ((w.length - 1 : Nat) : ℚ) := by
    rw [meanOrZero_of_ne_nil _ hpne, priceChanges_sum w hne, hpl]
  have hpos : (0 : ℚ) < ((w.length - 1 : Nat) : ℚ) := by
    have : 0 < w.length - 1 := by omega
    exact_mod_cast this
  refine ⟨?_, hpv, ?_, ?_, meanOrZero_nonneg _ (volumeChanges_nonneg w)⟩
  · rw [meanOrZero_of_ne_nil _ hpne, hpl]
    unfold specPriceVelocity
    rw [← priceChanges_eq_map_range]
  · rw [hpv, div_neg_iff]
    constructor
    · rintro (⟨_, h2⟩ | ⟨h1, _⟩)
      · exact absurd hpos (not_lt.mpr h2.le)
      · linarith
    · intro h
      exact Or.inr ⟨by linarith, hpos⟩
  · rw [meanOrZero_of_ne_nil _ hvne, hvl]
    unfold specVolumeTrend
    rw [← volumeChanges_eq_map_range]

theorem price_velocity_is_net_change_witness :
    2 ≤ zigzagWindow.length ∧
      (computeWindowStats zigzagWindow).price_velocity = (8 - 10) / 3 ∧
      (computeWindowStats zigzagWindow).volume_trend = 5 / 3 ∧
      (computeWindowStats zigzagWindow).price_velocity < 0 := by
  have h := price_velocity_is_net_change zigzagWindow (by decide)
  exact ⟨by decide, h.2.1.trans (by decide!), by decide!, h.2.2.1.mpr (by decide!)⟩

/-! ## Cursor, frame and totality of the scan -/

theorem processTrades_outcome (config : DetectionConfig) (d : RugPullDetector) :
    (d.trades_.length ≤ d.current_idx_ ∧ processTrades config d = ⟨{}, d, 0⟩) ∨
    (d.current_idx_ < d.trades_.length ∧
      (∀ (i : Nat) (h : i < d.trades_.length), d.current_idx_ ≤ i →
        scanStep config d d.trades_[i] = none) ∧
      processTrades config d
        = ⟨{}, { d with current_idx_ := d.trades_.length },
            d.trades_.length - d.current_idx_⟩) ∨
    (∃ (i : Nat) (h : i < d.trades_.length) (r : DetectionResult),
      d.current_idx_ ≤ i ∧ scanStep config d d.trades_[i] = some r ∧
      (∀ (j : Nat) (hj : j < d.trades_.length), d.current_idx_ ≤ j → j < i →
        scanStep config d d.trades_[j] = none) ∧
      processTrades config d = ⟨r, { d with current_idx_ := i }, i - d.current_idx_ + 1⟩) := by
  by_cases hlt : d.current_idx_ < d.trades_.length
  · have hnil := trades_ne_nil_of_lt d _ hlt
    rw [processTrades_of_not_empty config d hnil]
    rcases processLoop_outcome config (d.trades_.length - d.current_idx_) d 0 (le_refl _)
      hlt.le with ⟨hnone, hout⟩ | ⟨i, h, r, hci, hr, hmin, hout⟩
    · right; left
      rw [Nat.zero_add] at hout
      exact ⟨hlt, hnone, hout⟩
    · right; right
      rw [Nat.zero_add] at hout
      exact ⟨i, h, r, hci, hr, hmin, hout⟩
  · left
    exact ⟨not_lt.mp hlt, processTrades_of_cursor_past_end config d (not_lt.mp hlt)⟩

theorem processTrades_detector (config : DetectionConfig) (d : RugPullDetector) :
    ∃ k, (processTrades config d).detector = { d with current_idx_ := k } ∧
      d.current_idx_ ≤ k ∧ (d.current_idx_ ≤ d.trades_.length → k ≤ d.trades_.length) := by
  rcases processTrades_outcome config d with ⟨_, hout⟩ | ⟨hlt, _, hout⟩ | ⟨i, h, r, hci, _, _, hout⟩
  · exact ⟨d.current_idx_, by rw [hout], le_refl _, fun h => h⟩
  · exact ⟨d.trades_.length, by rw [hout], hlt.le, fun _ => le_refl _⟩
  · exact ⟨i, by rw [hout], hci, fun _ => h.le⟩

/-- C15: for every detector state and configuration, `processTrades` leaves the
trade sequence, the peak value, the peak time and the analysis start time as
they were; the cursor is the only field it can change. -/
theorem processTrades_changes_only_cursor (config : DetectionConfig) (d : RugPullDetector) :
    (processTrades config d).detector.trades_ = d.trades_ ∧
      (processTrades config d).detector.peak_mc_ = d.peak_mc_ ∧
      (processTrades config d).detector.peak_time_ = d.peak_time_ ∧
      (processTrades config d).detector.analysis_start_time_ = d.analysis_start_time_ ∧
      (processTrades config d).detector
        = { d with current_idx_ := (processTrades config d).detector.current_idx_ } := by
  obtain ⟨k, hk, _, _⟩ := processTrades_detector config d
  rw [hk]
  exact ⟨rfl, rfl, rfl, rfl, rfl⟩

theorem applyCall_cursor_le (d : RugPullDetector) (c : Call) :
    d.current_idx_ ≤ (applyCall d c).current_idx_ := by
  cases c with
  | addTrade trade =>
    show d.current_idx_ ≤ (addTrade d trade).current_idx_
    rw [addTrade_current_idx]
  | processTrades config =>
    show d.current_idx_ ≤ (processTrades config d).detector.current_idx_
    obtain ⟨k, hk, hle, _⟩ := processTrades_detector config d
    rw [hk]
    exact hle

theorem applyCall_cursor_bound (d : RugPullDetector) (c : Call)
    (h : d.current_idx_ ≤ d.trades_.length) :
    (applyCall d c).current_idx_ ≤ (applyCall d c).trades_.length := by
  cases c with
  | addTrade trade =>
    show (addTrade d trade).current_idx_ ≤ (addTrade d trade).trades_.length
    rw [addTrade_current_idx, addTrade_trades, List.length_append]
    omega
  | processTrades config =>
    show (processTrades config d).detector.current_idx_
      ≤ (processTrades config d).detector.trades_.length
    obtain ⟨k, hk, _, hbound⟩ := processTrades_detector config d
    rw [hk]
    exact hbound h

theorem runCalls_append_singleton (d : RugPullDetector) (cs : List Call) (c : Call) :
    runCalls d (cs ++ [c]) = applyCall (runCalls d cs) c := by
  unfold runCalls
  rw [List.foldl_append]
  rfl

theorem runCalls_cursor_bound (now : Int) (cs : List Call) :
    (runCalls (RugPullDetector.new now) cs).current_idx_
      ≤ (runCalls (RugPullDetector.new now) cs).trades_.length := by
  induction cs using List.reverseRecOn with
  | nil => exact le_refl _
  | append_singleton cs c ih =>
    rw [runCalls_append_singleton]
    exact applyCall_cursor_bound _ c ih

/-- C12: in every state reached from a fresh detector by any sequence of
`addTrade` and `processTrades` calls, the cursor is at most the number of
trades in the log, and no further `addTrade` or `processTrades` call decreases
the cursor. -/
theorem cursor_bounded_and_monotone (now : Int) (calls : List Call) (next : Call) :
    (runCalls (RugPullDetector.new now) calls).current_idx_
        ≤ (runCalls (RugPullDetector.new now) calls).trades_.length ∧
      (runCalls (RugPullDetector.new now) calls).current_idx_
        ≤ (runCalls (RugPullDetector.new now) (calls ++ [next])).current_idx_ := by
  refine ⟨runCalls_cursor_bound now calls, ?_⟩
  rw [runCalls_append_singleton]
  exact applyCall_cursor_le _ next

theorem scanStep_timestamp (config : DetectionConfig) (d : RugPullDetector) (t : Trade)
    (r : DetectionResult) (h : scanStep config d t = some r) :
    r.timestamp = some t.timestamp := by
  simp only [scanStep] at h
  split_ifs at h <;> (injection h with h'; rw [← h']; rfl)

/-- C18: whenever `processTrades` returns `rug_pulled = true`, the cursor
afterwards indexes the firing trade (the one whose timestamp the result
carries), and a following call with no trade added returns the identical
result, leaves the detector unchanged and computes exactly one window: no
trade after the firing one is examined. -/
theorem detection_keeps_cursor_on_firing_trade (config : DetectionConfig)
    (d : RugPullDetector) (hdet : (processTrades config d).result.rug_pulled = true) :
    ∃ (i : Nat) (hi : i < d.trades_.length),
      d.current_idx_ ≤ i ∧
      (processTrades config d).detector.current_idx_ = i ∧
      (processTrades config d).result.timestamp = some d.trades_[i].timestamp ∧
      (processTrades config (processTrades config d).detector).result
        = (processTrades config d).result ∧
      (processTrades config (processTrades config d).detector).detector
        = (processTrades config d).detector ∧
      (processTrades config (processTrades config d).detector).window_calls = 1 := by
  rcases processTrades_outcome config d with ⟨_, hout⟩ | ⟨_, _, hout⟩ | ⟨i, h, r, hci, hr, _, hout⟩
  · rw [hout] at hdet; cases hdet
  · rw [hout] at hdet; cases hdet
  · have hsecond : processTrades config { d with current_idx_ := i }
        = ⟨r, { d with current_idx_ := i }, 1⟩ := by
      have hnil : ({ d with current_idx_ := i } : RugPullDetector).trades_ ≠ [] :=
        trades_ne_nil_of_lt d i h
      rw [processTrades_of_not_empty config _ hnil]
      have := processLoop_fires config (d.trades_.length - i) { d with current_idx_ := i } 0
        i h r (le_refl _) (le_refl _) hr (fun j _ hcj hji => by simp only at hcj; omega)
      simp only [Nat.sub_self, Nat.zero_add] at this
      exact this
    rw [hout]
    simp only
    rw [hsecond]
    exact ⟨i, h, hci, rfl, scanStep_timestamp config d _ r hr, rfl, rfl, rfl⟩

theorem detection_keeps_cursor_on_firing_trade_witness :
    (processTrades defaultConfig decliningLog).result.rug_pulled = true ∧
      (processTrades defaultConfig decliningLog).detector.current_idx_ = 2 ∧
      (processTrades defaultConfig (processTrades defaultConfig decliningLog).detector).result
        = (processTrades defaultConfig decliningLog).result ∧
      (∃ (i : Nat) (_ : i < decliningLog.trades_.length),
        (processTrades defaultConfig decliningLog).detector.current_idx_ = i ∧
        (processTrades defaultConfig
          (processTrades defaultConfig decliningLog).detector).window_calls = 1) := by
  obtain ⟨i, hi, _, h2, _, h4, _, h6⟩ :=
    detection_keeps_cursor_on_firing_trade defaultConfig decliningLog (by decide!)
  exact ⟨by decide!, by decide!, h4, i, hi, h2, h6⟩

theorem processLoop_fuel_irrelevant (config : DetectionConfig) (fuel : Nat)
    (d : RugPullDetector) (calls : Nat) (hfuel : d.trades_.length - d.current_idx_ ≤ fuel) :
    processLoop config fuel d calls
      = processLoop config (d.trades_.length - d.current_idx_) d calls := by
  by_cases hle : d.current_idx_ ≤ d.trades_.length
  · rcases processLoop_outcome config fuel d calls hfuel hle with
      ⟨hnone, hout⟩ | ⟨i, h, r, hci, hr, hmin, hout⟩
    · rw [hout, processLoop_exhausted config _ d calls (le_refl _) hle hnone]
    · rw [hout, processLoop_fires config _ d calls i h r (le_refl _) hci hr hmin]
  · have h0 : d.trades_.length - d.current_idx_ = 0 := by omega
    rw [h0]
    cases fuel with
    | zero => rfl
    | succ n =>
      simp only [processLoop]
      rw [dif_neg (by omega)]

theorem scanStep_of_short_window (config : DetectionConfig) (d : RugPullDetector) (t : Trade)
    (hshort : (getRecentTrades d t.timestamp).length ≤ 1) :
    scanStep config d t =
      if (getRecentTrades d t.timestamp).isEmpty then none
      else if currentDrop d.peak_mc_ t.market_cap_sol ≥ config.stop_loss_threshold then
        some (buildResult true t.timestamp "stop_loss" none
          (currentDrop d.peak_mc_ t.market_cap_sol * 100) d.peak_mc_ t.market_cap_sol)
      else none := by
  have hnot : ¬ (getRecentTrades d t.timestamp).length > 1 := by omega
  simp only [scanStep, hnot, if_false]

/-- C19: under the default configuration `processTrades` is total and fails
open on every log: it runs at most `number of trades - cursor` loop iterations
(any larger iteration budget gives the same outcome), a result without a
detection is the default no-detection result, and an empty log gives
`rug_pulled = false` with no timestamp.  No division by zero is reachable: the
drop is 0 unless the peak is positive, a window of fewer than two trades is
judged by the stop-loss test alone, every window of at least two trades has a
non-zero length and non-empty change vectors, and `time_from_peak_threshold`
is not 0. -/
theorem processTrades_total_and_fails_open (d : RugPullDetector) :
    (processTrades defaultConfig d).window_calls ≤ d.trades_.length - d.current_idx_ ∧
      (∀ fuel, d.trades_ ≠ [] → d.trades_.length - d.current_idx_ ≤ fuel →
        processLoop defaultConfig fuel d 0 = processTrades defaultConfig d) ∧
      ((processTrades defaultConfig d).result.rug_pulled = false →
        (processTrades defaultConfig d).result = {}) ∧
      (d.trades_ = [] →
        (processTrades defaultConfig d).result.rug_pulled = false ∧
        (processTrades defaultConfig d).result.timestamp = none ∧
        (processTrades defaultConfig d).detector = d) ∧
      (∀ mc, ¬ (0 < d.peak_mc_) → currentDrop d.peak_mc_ mc = 0) ∧
      (0 < d.peak_mc_ → d.peak_mc_ ≠ 0) ∧
      (∀ t : Trade, (getRecentTrades d t.timestamp).length ≤ 1 →
        scanStep defaultConfig d t =
          if (getRecentTrades d t.timestamp).isEmpty then none
          else if currentDrop d.peak_mc_ t.market_cap_sol ≥ defaultConfig.stop_loss_threshold then
            some (buildResult true t.timestamp "stop_loss" none
              (currentDrop d.peak_mc_ t.market_cap_sol * 100) d.peak_mc_ t.market_cap_sol)
          else none) ∧
      (∀ w : List Trade, 2 ≤ w.length →
        (w.length : ℚ) ≠ 0 ∧ ((priceChanges w).length : ℚ) ≠ 0 ∧
        ((volumeChanges w).length : ℚ) ≠ 0) ∧
      (defaultConfig.time_from_peak_threshold : ℚ) ≠ 0 := by
  refine ⟨?_, ?_, ?_, ?_, ?_, ?_, ?_, ?_, ?_⟩
  · rcases processTrades_outcome defaultConfig d with
      ⟨_, hout⟩ | ⟨_, _, hout⟩ | ⟨i, h, r, hci, _, _, hout⟩
    · rw [hout]; exact Nat.zero_le _
    · rw [hout]
    · rw [hout]; simp only; omega
  · intro fuel hnil hfuel
    rw [processTrades_of_not_empty defaultConfig d hnil]
    exact processLoop_fuel_irrelevant defaultConfig fuel d 0 hfuel
  · intro hno
    rcases processTrades_outcome defaultConfig d with
      ⟨_, hout⟩ | ⟨_, _, hout⟩ | ⟨i, h, r, _, hr, _, hout⟩
    · rw [hout]
    · rw [hout]
    · rw [hout] at hno
      have := scanStep_rug_pulled defaultConfig d _ r hr
      simp only at hno
      rw [this] at hno
      cases hno
  · intro hnil
    rw [processTrades_of_empty defaultConfig d hnil]
    exact ⟨rfl, rfl, rfl⟩
  · intro mc hpeak
    unfold currentDrop
    rw [if_neg hpeak]
  · intro hpeak
    exact ne_of_gt hpeak
  · intro t hshort
    exact scanStep_of_short_window defaultConfig d t hshort
  · intro w hw
    have h1 := priceChanges_length w
    have h2 := volumeChanges_length w
    refine ⟨?_, ?_, ?_⟩
    · have : w.length ≠ 0 := by omega
      exact_mod_cast this
    · have : (priceChanges w).length ≠ 0 := by omega
      exact_mod_cast this
    · have : (volumeChanges w).length ≠ 0 := by omega
      exact_mod_cast this
  · decide!

/-! ## Peak updates -/

theorem earliest_peak_trade (d0 : RugPullDetector) (l : List Trade) :
    d0.peak_mc_ < (addTrades d0 l).peak_mc_ →
    ∃ (i : Nat) (t : Trade), l[i]? = some t ∧
      t.market_cap_sol = (addTrades d0 l).peak_mc_ ∧
      t.timestamp = (addTrades d0 l).peak_time_ ∧
      ∀ (j : Nat) (u : Trade), j < i → l[j]? = some u →
        u.market_cap_sol < (addTrades d0 l).peak_mc_ := by
  induction l using List.reverseRecOn with
  | nil => intro h; exact absurd h (lt_irrefl _)
  | append_singleton l a ih =>
    intro hgt
    rw [addTrades_append_singleton] at hgt ⊢
    by_cases ha : a.market_cap_sol > (addTrades d0 l).peak_mc_
    · have hpk : (addTrade (addTrades d0 l) a).peak_mc_ = a.market_cap_sol := by
        rw [addTrade_peak_mc, max_eq_right ha.le]
      rw [hpk, addTrade_peak_time_of_gt _ _ ha]
      refine ⟨l.length, a, by simp, rfl, rfl, ?_⟩
      intro j u hj hu
      rw [List.getElem?_append_left hj] at hu
      have hmem : u ∈ l := List.getElem?_mem hu
      exact lt_of_le_of_lt (addTrades_peak_ge_mem d0 l u hmem) ha
    · have hle := not_lt.mp ha
      have hpk : (addTrade (addTrades d0 l) a).peak_mc_ = (addTrades d0 l).peak_mc_ := by
        rw [addTrade_peak_mc, max_eq_left hle]
      rw [hpk] at hgt ⊢
      rw [addTrade_peak_time_of_le _ _ hle]
      obtain ⟨i, t, hit, h1, h2, h3⟩ := ih hgt
      have hi : i < l.length := by
        by_contra hcon
        rw [List.getElem?_eq_none (not_lt.mp hcon)] at hit
        cases hit
      refine ⟨i, t, by rw [List.getElem?_append_left hi]; exact hit, h1, h2, ?_⟩
      intro j u hj hu
      rw [List.getElem?_append_left (by omega)] at hu
      exact h3 j u hj hu

/-- C14, as the code has it: `addTrade` never decreases the peak value; it
changes the peak exactly when the added trade's market cap is strictly greater
than the current peak, and then peak value and peak time become that trade's
market cap and timestamp, otherwise both stay as they were.  So after any
sequence of adds to a fresh detector that contains a trade with a positive
market cap, the peak is the maximum market cap and the peak time is the
timestamp of the earliest trade attaining it. -/
theorem addTrade_updates_peak (d : RugPullDetector) (t : Trade) (now : Int)
    (trades : List Trade) :
    d.peak_mc_ ≤ (addTrade d t).peak_mc_ ∧
      ((addTrade d t).peak_mc_ ≠ d.peak_mc_ ↔ t.market_cap_sol > d.peak_mc_) ∧
      (t.market_cap_sol > d.peak_mc_ →
        (addTrade d t).peak_mc_ = t.market_cap_sol ∧
        (addTrade d t).peak_time_ = t.timestamp) ∧
      (¬ t.market_cap_sol > d.peak_mc_ →
        (addTrade d t).peak_mc_ = d.peak_mc_ ∧ (addTrade d t).peak_time_ = d.peak_time_) ∧
      ((∃ u ∈ trades, 0 < u.market_cap_sol) →
        (∀ u ∈ trades,
          u.market_cap_sol ≤ (addTrades (RugPullDetector.new now) trades).peak_mc_) ∧
        ∃ (i : Nat) (p : Trade), trades[i]? = some p ∧
          p.market_cap_sol = (addTrades (RugPullDetector.new now) trades).peak_mc_ ∧
          p.timestamp = (addTrades (RugPullDetector.new now) trades).peak_time_ ∧
          ∀ (j : Nat) (u : Trade), j < i → trades[j]? = some u →
            u.market_cap_sol < (addTrades (RugPullDetector.new now) trades).peak_mc_) := by
  have hpk := addTrade_peak_mc d t
  refine ⟨?_, ?_, ?_, ?_, ?_⟩
  · rw [hpk]; exact le_max_left _ _
  · rw [hpk]
    constructor
    · intro hne
      by_contra hcon
      exact hne (max_eq_left (not_lt.mp hcon))
    · intro hgt
      rw [max_eq_right hgt.le]
      exact ne_of_gt hgt
  · intro hgt
    exact ⟨by rw [hpk, max_eq_right hgt.le], addTrade_peak_time_of_gt d t hgt⟩
  · intro hle
    exact ⟨by rw [hpk, max_eq_left (not_lt.mp hle)],
      addTrade_peak_time_of_le d t (not_lt.mp hle)⟩
  · rintro ⟨u, hu, hpos⟩
    refine ⟨addTrades_peak_ge_mem _ trades, ?_⟩
    apply earliest_peak_trade
    have h0 : (RugPullDetector.new now).peak_mc_ = 0 := rfl
    rw [h0]
    exact lt_of_lt_of_le hpos (addTrades_peak_ge_mem _ trades u hu)

theorem addTrade_updates_peak_witness :
    (∃ u ∈ gentleRise, 0 < u.market_cap_sol) ∧
      (addTrades (RugPullDetector.new 7) gentleRise).peak_mc_ = 100 ∧
      (addTrades (RugPullDetector.new 7) gentleRise).peak_time_ = 20 * ticksPerSecond ∧
      (addTrade (RugPullDetector.new 7) ⟨5, 3, 1⟩).peak_time_ = 5 ∧
      ∃ (i : Nat) (p : Trade), gentleRise[i]? = some p ∧
        p.market_cap_sol = (addTrades (RugPullDetector.new 7) gentleRise).peak_mc_ ∧
        p.timestamp = (addTrades (RugPullDetector.new 7) gentleRise).peak_time_ := by
  have h := addTrade_updates_peak (RugPullDetector.new 7) ⟨5, 3, 1⟩ 7 gentleRise
  obtain ⟨i, p, h1, h2, h3, _⟩ := (h.2.2.2.2 (by decide!)).2
  exact ⟨by decide!, by decide!, by decide!, (h.2.2.1 (by decide!)).2, i, p, h1, h2, h3⟩

/-- C14 as stated fails in its last part: after one add of a trade with market
cap 0 at time 5 to a detector constructed at time 7, that trade attains the
maximum market cap 0, yet the peak time is still the construction time 7. -/
theorem peak_time_stays_at_construction_for_zero_caps :
    zeroCapLog.trades_ = [⟨5, 0, 1⟩] ∧
      (∀ u ∈ zeroCapLog.trades_, u.market_cap_sol ≤ zeroCapLog.peak_mc_) ∧
      (∃ u ∈ zeroCapLog.trades_, u.market_cap_sol = zeroCapLog.peak_mc_) ∧
      zeroCapLog.peak_mc_ = 0 ∧
      zeroCapLog.peak_time_ = 7 ∧
      (∀ u ∈ zeroCapLog.trades_, u.timestamp ≠ zeroCapLog.peak_time_) := by
  decide!

/-! ## When the pattern check fires -/

theorem le_max_zero_iff_of_pos (c x : ℚ) (hc : 0 < c) : c ≤ max 0 x ↔ c ≤ x := by
  rw [le_max_iff]
  constructor
  · rintro (h | h)
    · exact absurd h (not_le.mpr hc)
    · exact h
  · intro h; exact Or.inr h

theorem time_conf_ge_iff (c : ℚ) (t : Int) (hc : 0 < c) (bound : Int)
    (hlo : c ≤ 1 - (bound : ℚ) / 105) (hhi : 1 - ((bound : ℚ) + 1) / 105 < c) :
    c ≤ max 0 (1 - (t : ℚ) / 105) ↔ t ≤ bound := by
  rw [le_max_zero_iff_of_pos c _ hc]
  constructor
  · intro h
    by_contra hcon
    have h1 : bound + 1 ≤ t := by omega
    have h2 : ((bound : ℚ) + 1) ≤ (t : ℚ) := by exact_mod_cast h1
    have h3 : 1 - (t : ℚ) / 105 ≤ 1 - ((bound : ℚ) + 1) / 105 := by
      have := div_le_div_of_nonneg_right h2 (by norm_num : (0 : ℚ) ≤ 105)
      linarith
    linarith
  · intro h
    have h2 : (t : ℚ) ≤ (bound : ℚ) := by exact_mod_cast h
    have h3 : 1 - (bound : ℚ) / 105 ≤ 1 - (t : ℚ) / 105 := by
      have := div_le_div_of_nonneg_right h2 (by norm_num : (0 : ℚ) ≤ 105)
      linarith
    linarith

theorem confidence_default (drop time_diff : ℚ) (pattern : CubeRoot) (volume : ℚ) :
    calculateConfidence drop time_diff pattern volume defaultConfig
      = 4 / 10 * indicator (decide (drop ≥ 10 / 100)) * max 0 (1 - time_diff / 105)
        + 3 / 10 * indicator (pattern.ge (457 / 1000))
        + 3 / 10 * indicator (decide (volume ≥ 1244 / 1000)) := by
  have h1 : defaultConfig.peak_drop_threshold = 10 / 100 := by
    show (100 : ℚ) / 1000 = 10 / 100
    norm_num
  have h2 : defaultConfig.pattern_strength_threshold = 457 / 1000 := rfl
  have h3 : defaultConfig.volume_spike_threshold = 1244 / 1000 := rfl
  have h4 : ((defaultConfig.time_from_peak_threshold : Int) : ℚ) = 105 := by
    have : defaultConfig.time_from_peak_threshold = 105 := rfl
    rw [this]; norm_num
  unfold calculateConfidence
  simp only [h1, h2, h3, h4]

theorem pattern_check_iff (drop : ℚ) (t : Int) (pattern : CubeRoot) (volume : ℚ)
    (ht : 5 ≤ t) :
    calculateConfidence drop (t : ℚ) pattern volume defaultConfig ≥ 672 / 1000 ↔
      drop ≥ 10 / 100 ∧
        ((pattern.ge (457 / 1000) = true ∧ volume ≥ 1244 / 1000 ∧ t ≤ 86) ∨
          (((pattern.ge (457 / 1000) = true ∧ ¬ volume ≥ 1244 / 1000) ∨
            (pattern.ge (457 / 1000) = false ∧ volume ≥ 1244 / 1000)) ∧ t ≤ 7)) := by
  rw [confidence_default]
  have htc0 : (0 : ℚ) ≤ max 0 (1 - (t : ℚ) / 105) := le_max_left _ _
  have htc1 : max 0 (1 - (t : ℚ) / 105) ≤ 1 := by
    have h5 : (5 : ℚ) ≤ (t : ℚ) := by exact_mod_cast ht
    apply max_le (by norm_num)
    have : (0 : ℚ) ≤ (t : ℚ) / 105 := div_nonneg (by linarith) (by norm_num)
    linarith
  have h86 := time_conf_ge_iff (18 / 100) t (by norm_num) 86 (by norm_num) (by norm_num)
  have h7 := time_conf_ge_iff (93 / 100) t (by norm_num) 7 (by norm_num) (by norm_num)
  by_cases hp : drop ≥ 10 / 100
  · have ip : indicator (decide (drop ≥ 10 / 100)) = 1 := by
      unfold indicator; rw [if_pos (decide_eq_true hp)]
    rw [ip]
    by_cases hb : volume ≥ 1244 / 1000
    · have ib : indicator (decide (volume ≥ 1244 / 1000)) = 1 := by
        unfold indicator; rw [if_pos (decide_eq_true hb)]
      rw [ib]
      cases ha : pattern.ge (457 / 1000)
      · have ia : indicator false = 0 := rfl
        rw [ia]
        constructor
        · intro h
          have : (93 : ℚ) / 100 ≤ max 0 (1 - (t : ℚ) / 105) := by linarith
          exact ⟨hp, Or.inr ⟨Or.inr ⟨rfl, hb⟩, h7.mp this⟩⟩
        · rintro ⟨_, ⟨hf, _, _⟩ | ⟨_, h⟩⟩
          · cases hf
          · have := h7.mpr h
            linarith
      · have ia : indicator true = 1 := rfl
        rw [ia]
        constructor
        · intro h
          have : (18 : ℚ) / 100 ≤ max 0 (1 - (t : ℚ) / 105) := by linarith
          exact ⟨hp, Or.inl ⟨rfl, hb, h86.mp this⟩⟩
        · rintro ⟨_, ⟨_, _, h⟩ | ⟨⟨_, hnb⟩ | ⟨hf, _⟩, _⟩⟩
          · have := h86.mpr h
            linarith
          · exact absurd hb hnb
          · cases hf
    · have ib : indicator (decide (volume ≥ 1244 / 1000)) = 0 := by
        unfold indicator; rw [if_neg]; simpa using hb
      rw [ib]
      cases ha : pattern.ge (457 / 1000)
      · have ia : indicator false = 0 := rfl
        rw [ia]
        constructor
        · intro h
          exfalso; linarith
        · rintro ⟨_, ⟨hf, _, _⟩ | ⟨⟨hf, _⟩ | ⟨_, hv⟩, _⟩⟩
          · cases hf
          · cases hf
          · exact absurd hv hb
      · have ia : indicator true = 1 := rfl
        rw [ia]
        constructor
        · intro h
          have : (93 : ℚ) / 100 ≤ max 0 (1 - (t : ℚ) / 105) := by linarith
          exact ⟨hp, Or.inr ⟨Or.inl ⟨rfl, hb⟩, h7.mp this⟩⟩
        · rintro ⟨_, ⟨_, hv, _⟩ | ⟨_, h⟩⟩
          · exact absurd hv hb
          · have := h7.mpr h
            linarith
  · have ip : indicator (decide (drop ≥ 10 / 100)) = 0 := by
      unfold indicator; rw [if_neg]; simpa using hp
    rw [ip]
    have ia := indicator_le_one (pattern.ge (457 / 1000))
    have ib := indicator_le_one (decide (volume ≥ 1244 / 1000))
    constructor
    · intro h
      exfalso; linarith
    · rintro ⟨h, _⟩
      exact absurd h hp

theorem scanStep_cases (config : DetectionConfig) (d : RugPullDetector) (t : Trade)
    (r : DetectionResult) (h : scanStep config d t = some r) :
    (currentDrop d.peak_mc_ t.market_cap_sol ≥ config.stop_loss_threshold ∧
      r = buildResult true t.timestamp "stop_loss" none
        (currentDrop d.peak_mc_ t.market_cap_sol * 100) d.peak_mc_ t.market_cap_sol) ∨
    (¬ currentDrop d.peak_mc_ t.market_cap_sol ≥ config.stop_loss_threshold ∧
      (getRecentTrades d t.timestamp).length > 1 ∧
      durationSeconds (t.timestamp - d.peak_time_) ≥ 5 ∧
      calculateConfidence (currentDrop d.peak_mc_ t.market_cap_sol)
        (durationSeconds (t.timestamp - d.peak_time_) : ℚ)
        (computeWindowStats (getRecentTrades d t.timestamp)).pattern_strength
        (computeWindowStats (getRecentTrades d t.timestamp)).volume_trend config
        ≥ config.min_confidence_score ∧
      r = buildResult true t.timestamp "pattern"
        (some (calculateConfidence (currentDrop d.peak_mc_ t.market_cap_sol)
          (durationSeconds (t.timestamp - d.peak_time_) : ℚ)
          (computeWindowStats (getRecentTrades d t.timestamp)).pattern_strength
          (computeWindowStats (getRecentTrades d t.timestamp)).volume_trend config))
        (currentDrop d.peak_mc_ t.market_cap_sol * 100) d.peak_mc_ t.market_cap_sol) := by
  simp only [scanStep] at h
  split_ifs at h with h1 h2 h3 h4 h5
  · injection h with h'
    exact Or.inl ⟨h2, h'.symm⟩
  · injection h with h'
    exact Or.inr ⟨h2, h3, h4, h5, h'.symm⟩

theorem confidence_default_le_one (drop : ℚ) (t : Int) (pattern : CubeRoot) (volume : ℚ)
    (ht : 0 ≤ t) : calculateConfidence drop (t : ℚ) pattern volume defaultConfig ≤ 1 := by
  rw [confidence_default]
  have htc0 : (0 : ℚ) ≤ max 0 (1 - (t : ℚ) / 105) := le_max_left _ _
  have htc1 : max 0 (1 - (t : ℚ) / 105) ≤ 1 := by
    have h0 : (0 : ℚ) ≤ (t : ℚ) := by exact_mod_cast ht
    apply max_le (by norm_num)
    have : (0 : ℚ) ≤ (t : ℚ) / 105 := div_nonneg h0 (by norm_num)
    linarith
  have hp0 := indicator_nonneg (decide (drop ≥ 10 / 100))
  have hp1 := indicator_le_one (decide (drop ≥ 10 / 100))
  have ha := indicator_le_one (pattern.ge (457 / 1000))
  have hb := indicator_le_one (decide (volume ≥ 1244 / 1000))
  have hprod : indicator (decide (drop ≥ 10 / 100)) * max 0 (1 - (t : ℚ) / 105) ≤ 1 := by
    calc _ ≤ 1 * 1 := mul_le_mul hp1 htc1 htc0 (by norm_num)
      _ = 1 := by norm_num
  nlinarith

/-- C17: under the default configuration and for an integer time since the
peak `t ≥ 5`, `calculateConfidence ≥ 0.672` holds if and only if the drop is at
least 0.10 and either both indicators (`pattern_strength ≥ 0.457`,
`volume_trend ≥ 1.244`) hold with `t ≤ 86`, or exactly one of them holds with
`t ≤ 7`.  Hence every result of `processTrades` with trigger `pattern` has a
drop percentage in `[10, 40)`, a confidence in `[0.672, 1]` and carries the
timestamp of a trade between 5 and 86 seconds after the peak. -/
theorem pattern_trigger_characterised (drop : ℚ) (t : Int) (pattern : CubeRoot)
    (volume : ℚ) (d : RugPullDetector) (ht : 5 ≤ t) :
    (calculateConfidence drop (t : ℚ) pattern volume defaultConfig ≥ 672 / 1000 ↔
      drop ≥ 10 / 100 ∧
        ((pattern.ge (457 / 1000) = true ∧ volume ≥ 1244 / 1000 ∧ t ≤ 86) ∨
          (((pattern.ge (457 / 1000) = true ∧ ¬ volume ≥ 1244 / 1000) ∨
            (pattern.ge (457 / 1000) = false ∧ volume ≥ 1244 / 1000)) ∧ t ≤ 7))) ∧
    ((processTrades defaultConfig d).result.debug_info.trigger_type = "pattern" →
      (processTrades defaultConfig d).result.rug_pulled = true ∧
      10 ≤ (processTrades defaultConfig d).result.debug_info.drop_percentage ∧
      (processTrades defaultConfig d).result.debug_info.drop_percentage < 40 ∧
      672 / 1000 ≤ (processTrades defaultConfig d).result.debug_info.confidence ∧
      (processTrades defaultConfig d).result.debug_info.confidence ≤ 1 ∧
      ∃ (i : Nat) (hi : i < d.trades_.length),
        (processTrades defaultConfig d).result.timestamp = some d.trades_[i].timestamp ∧
        5 ≤ timeSincePeak d d.trades_[i] ∧ timeSincePeak d d.trades_[i] ≤ 86) := by
  refine ⟨pattern_check_iff drop t pattern volume ht, ?_⟩
  intro htrig
  have hne : ("" : String) ≠ "pattern" := by decide
  have hne2 : ("stop_loss" : String) ≠ "pattern" := by decide
  rcases processTrades_outcome defaultConfig d with
    ⟨_, hout⟩ | ⟨_, _, hout⟩ | ⟨i, hi, r, _, hr, _, hout⟩
  · rw [hout] at htrig; exact absurd htrig hne
  · rw [hout] at htrig; exact absurd htrig hne
  · rw [hout] at htrig ⊢
    simp only at htrig ⊢
    rcases scanStep_cases defaultConfig d _ r hr with ⟨_, hres⟩ | ⟨hsl, _, htime, hconf, hres⟩
    · rw [hres] at htrig; exact absurd htrig hne2
    · have hmin : defaultConfig.min_confidence_score = 672 / 1000 := rfl
      have hstop : defaultConfig.stop_loss_threshold = 40 / 100 := rfl
      rw [hmin] at hconf
      rw [hstop] at hsl
      have hiff := (pattern_check_iff _ _ _ _ htime).mp hconf
      have hle1 := confidence_default_le_one (currentDrop d.peak_mc_ d.trades_[i].market_cap_sol)
        (durationSeconds (d.trades_[i].timestamp - d.peak_time_))
        (computeWindowStats (getRecentTrades d d.trades_[i].timestamp)).pattern_strength
        (computeWindowStats (getRecentTrades d d.trades_[i].timestamp)).volume_trend
        (by omega)
      have h86 : durationSeconds (d.trades_[i].timestamp - d.peak_time_) ≤ 86 := by
        rcases hiff.2 with ⟨_, _, h⟩ | ⟨_, h⟩
        · exact h
        · omega
      rw [hres]
      refine ⟨rfl, ?_, ?_, hconf, hle1, i, hi, rfl, htime, h86⟩
      · show (10 : ℚ) ≤ currentDrop d.peak_mc_ d.trades_[i].market_cap_sol * 100
        linarith [hiff.1]
      · show currentDrop d.peak_mc_ d.trades_[i].market_cap_sol * 100 < 40
        linarith [not_le.mp hsl]

theorem pattern_trigger_characterised_witness :
    (5 : Int) ≤ 20 ∧
      calculateConfidence (10 / 100) ((20 : Int) : ℚ) ⟨1⟩ 2 defaultConfig ≥ 672 / 1000 ∧
      (processTrades defaultConfig decliningLog).result.debug_info.trigger_type = "pattern" ∧
      (processTrades defaultConfig decliningLog).result.debug_info.drop_percentage = 10 ∧
      (processTrades defaultConfig decliningLog).result.debug_info.confidence ≤ 1 := by
  have h := pattern_trigger_characterised (10 / 100) 20 ⟨1⟩ 2 decliningLog (by decide)
  exact ⟨by decide, h.1.mpr (by decide!), by decide!, by decide!,
    (h.2 (by decide!)).2.2.2.2.1⟩

/-! ## Round-robin submission -/

theorem pushAt_length (qs : List (List String)) (i : Nat) (key : String) :
    (pushAt qs i key).length = qs.length := by
  induction qs generalizing i with
  | nil => rfl
  | cons q qs ih =>
    cases i with
    | zero => rfl
    | succ i => simp [pushAt, ih]

theorem pushAt_getElem?_self (qs : List (List String)) (i : Nat) (key : String) :
    (pushAt qs i key)[i]? = (qs[i]?).map (fun q => q ++ [key]) := by
  induction qs generalizing i with
  | nil => simp [pushAt]
  | cons q qs ih =>
    cases i with
    | zero => simp [pushAt]
    | succ i => simpa [pushAt] using ih i

theorem pushAt_getElem?_other (qs : List (List String)) (i j : Nat) (key : String)
    (hne : j ≠ i) : (pushAt qs i key)[j]? = qs[j]? := by
  induction qs generalizing i j with
  | nil => simp [pushAt]
  | cons q qs ih =>
    cases i with
    | zero =>
      cases j with
      | zero => exact absurd rfl hne
      | succ j => simp [pushAt]
    | succ i =>
      cases j with
      | zero => simp [pushAt]
      | succ j =>
        have : j ≠ i := fun h => hne (by rw [h])
        simpa [pushAt] using ih i j this

theorem getD_length_eq (qs : List (List String)) (j : Nat) :
    (qs.getD j []).length = match qs[j]? with
      | some q => q.length
      | none => 0 := by
  rw [List.getD_eq_getElem?_getD]
  cases qs[j]? <;> rfl

theorem pushAt_queue_length (qs : List (List String)) (i j : Nat) (key : String)
    (hi : i < qs.length) :
    ((pushAt qs i key).getD j []).length
      = (qs.getD j []).length + (if j = i then 1 else 0) := by
  rw [getD_length_eq, getD_length_eq]
  by_cases hji : j = i
  · subst hji
    rw [pushAt_getElem?_self, List.getElem?_eq_getElem hi]
    simp
  · rw [pushAt_getElem?_other _ _ _ _ hji, if_neg hji]
    rfl

theorem div_succ_shifted (P q m : Nat) (hq : q < P) :
    (m + 1 + (P - 1 - q)) / P = (m + (P - 1 - q)) / P + (if m % P = q then 1 else 0) := by
  have hP : 0 < P := by omega
  have hm := Nat.div_add_mod m P
  have hr : m % P < P := Nat.mod_lt m hP
  have e1 : m + 1 + (P - 1 - q) = P * (m / P) + (m % P + 1 + (P - 1 - q)) := by omega
  have e2 : m + (P - 1 - q) = P * (m / P) + (m % P + (P - 1 - q)) := by omega
  have d1 : (m + 1 + (P - 1 - q)) / P = m / P + (m % P + 1 + (P - 1 - q)) / P := by
    rw [e1]; exact Nat.mul_add_div hP _ _
  have d2 : (m + (P - 1 - q)) / P = m / P + (m % P + (P - 1 - q)) / P := by
    rw [e2]; exact Nat.mul_add_div hP _ _
  rw [d1, d2]
  by_cases hlt : m % P < q
  · have h1 : (m % P + 1 + (P - 1 - q)) / P = 0 := Nat.div_eq_of_lt (by omega)
    have h2 : (m % P + (P - 1 - q)) / P = 0 := Nat.div_eq_of_lt (by omega)
    rw [h1, h2, if_neg (by omega)]
  · by_cases heq : m % P = q
    · have h1 : (m % P + 1 + (P - 1 - q)) / P = 1 :=
        Nat.div_eq_of_lt_le (by omega) (by omega)
      have h2 : (m % P + (P - 1 - q)) / P = 0 := Nat.div_eq_of_lt (by omega)
      rw [h1, h2, if_pos heq]
    · have h1 : (m % P + 1 + (P - 1 - q)) / P = 1 :=
        Nat.div_eq_of_lt_le (by omega) (by omega)
      have h2 : (m % P + (P - 1 - q)) / P = 1 :=
        Nat.div_eq_of_lt_le (by omega) (by omega)
      rw [h1, h2, if_neg heq]

theorem div_window (P a K : Nat) (hP : 0 < P) :
    a / P + K / P ≤ (a + K) / P ∧ (a + K) / P ≤ a / P + K / P + 1 := by
  have ha := Nat.div_add_mod a P
  have hK := Nat.div_add_mod K P
  have hra : a % P < P := Nat.mod_lt a hP
  have hrK : K % P < P := Nat.mod_lt K hP
  have e : a + K = P * (a / P + K / P) + (a % P + K % P) := by
    rw [Nat.mul_add]; omega
  have hlt : (a % P + K % P) / P < 2 := Nat.div_lt_of_lt_mul (by omega)
  have d : (a + K) / P = a / P + K / P + (a % P + K % P) / P := by
    rw [e]; exact Nat.mul_add_div hP _ _
  rw [d]
  exact ⟨Nat.le_add_right _ _, Nat.add_le_add_left (Nat.lt_succ_iff.mp hlt) _⟩

theorem addTask_counter (n : Nat) (tp : TradeProcessor) (key : String) :
    (addTask n tp key).1 = n + 1 := rfl

theorem addTask_queue_count (n : Nat) (tp : TradeProcessor) (key : String) :
    (addTask n tp key).2.work_queues_.length = tp.work_queues_.length := by
  simp only [addTask, pushAt_length]

theorem addTask_queueLength (n : Nat) (tp : TradeProcessor) (key : String) (q : Nat)
    (hP : 0 < tp.work_queues_.length) :
    queueLength (addTask n tp key).2 q
      = queueLength tp q + (if q = n % tp.work_queues_.length then 1 else 0) := by
  unfold queueLength
  simp only [addTask]
  exact pushAt_queue_length _ _ _ _ (Nat.mod_lt _ hP)

theorem addTasks_nil (n : Nat) (tp : TradeProcessor) : addTasks n tp [] = (n, tp) := rfl

theorem addTasks_cons (n : Nat) (tp : TradeProcessor) (key : String) (keys : List String) :
    addTasks n tp (key :: keys) = addTasks (addTask n tp key).1 (addTask n tp key).2 keys := rfl

theorem addTasks_counter (n : Nat) (tp : TradeProcessor) (keys : List String) :
    (addTasks n tp keys).1 = n + keys.length := by
  induction keys generalizing n tp with
  | nil => rfl
  | cons key keys ih =>
    rw [addTasks_cons, ih, addTask_counter, List.length_cons]
    omega

theorem addTasks_queueLength (P : Nat) (keys : List String) :
    ∀ (n : Nat) (tp : TradeProcessor) (q : Nat), tp.work_queues_.length = P → q < P →
      queueLength (addTasks n tp keys).2 q + (n + (P - 1 - q)) / P
        = queueLength tp q + (n + keys.length + (P - 1 - q)) / P := by
  induction keys with
  | nil => intro n tp q _ _; rfl
  | cons key keys ih =>
    intro n tp q hlen hq
    rw [addTasks_cons, addTask_counter]
    have hrec := ih (n + 1) (addTask n tp key).2 q
      (by rw [addTask_queue_count, hlen]) hq
    have hstep := addTask_queueLength n tp key q (by omega)
    have hdiv := div_succ_shifted P q n hq
    rw [hlen] at hstep
    have hif : (if q = n % P then 1 else 0) = (if n % P = q then 1 else 0) := by
      by_cases h : q = n % P
      · rw [if_pos h, if_pos h.symm]
      · rw [if_neg h, if_neg (fun h' => h h'.symm)]
    rw [hif] at hstep
    have e : n + (key :: keys).length + (P - 1 - q) = n + 1 + keys.length + (P - 1 - q) := by
      rw [List.length_cons]; omega
    rw [e]
    omega

theorem queueLength_new (P q : Nat) : queueLength (TradeProcessor.new P) q = 0 := by
  unfold queueLength TradeProcessor.new
  rw [getD_length_eq]
  simp only
  by_cases h : q < P
  · rw [List.getElem?_eq_getElem (by simpa using h)]
    simp
  · rw [List.getElem?_eq_none (by simpa using h)]

theorem fresh_queue_length_bounds (P n K : Nat) (keys : List String) (hK : keys.length = K)
    (q : Nat) (hq : q < P) :
    K / P ≤ queueLength (addTasks n (TradeProcessor.new P) keys).2 q ∧
      queueLength (addTasks n (TradeProcessor.new P) keys).2 q ≤ K / P + 1 := by
  have hP : 0 < P := by omega
  have hlen : (TradeProcessor.new P).work_queues_.length = P := by
    simp [TradeProcessor.new]
  have hinv := addTasks_queueLength P keys n (TradeProcessor.new P) q hlen hq
  rw [queueLength_new, hK] at hinv
  have hw := div_window P (n + (P - 1 - q)) K hP
  have e : n + (P - 1 - q) + K = n + K + (P - 1 - q) := by omega
  rw [e] at hw
  omega

/-- C16: for a pool of `P > 0` queues, the call to `addTask` made when the
process-wide counter is `n` (the `n`-th call, counting from 0: after `n` calls
the counter is `n`) appends its key to the back of queue `n mod P`, leaves every
other queue and the number of queues unchanged and advances the counter to
`n + 1`.  So after any number of submissions to a fresh pool with no removals,
the queue lengths differ by at most one. -/
theorem addTask_round_robin (n : Nat) (tp : TradeProcessor) (redis_key : String)
    (keys : List String) (hP : 0 < tp.work_queues_.length) :
    (addTasks 0 tp keys).1 = keys.length ∧
      (addTask n tp redis_key).1 = n + 1 ∧
      (addTask n tp redis_key).2.work_queues_.length = tp.work_queues_.length ∧
      (addTask n tp redis_key).2.should_stop_ = tp.should_stop_ ∧
      (∃ old, tp.work_queues_[n % tp.work_queues_.length]? = some old ∧
        (addTask n tp redis_key).2.work_queues_[n % tp.work_queues_.length]?
          = some (old ++ [redis_key])) ∧
      (∀ q, q ≠ n % tp.work_queues_.length →
        (addTask n tp redis_key).2.work_queues_[q]? = tp.work_queues_[q]?) ∧
      (∀ q q', q < tp.work_queues_.length → q' < tp.work_queues_.length →
        queueLength (addTasks n (TradeProcessor.new tp.work_queues_.length) keys).2 q
          ≤ queueLength (addTasks n (TradeProcessor.new tp.work_queues_.length) keys).2 q'
            + 1) := by
  have hidx : n % tp.work_queues_.length < tp.work_queues_.length := Nat.mod_lt _ hP
  refine ⟨?_, rfl, addTask_queue_count n tp redis_key, rfl, ?_, ?_, ?_⟩
  · rw [addTasks_counter]; omega
  · refine ⟨tp.work_queues_[n % tp.work_queues_.length], List.getElem?_eq_getElem hidx, ?_⟩
    simp only [addTask]
    rw [pushAt_getElem?_self, List.getElem?_eq_getElem hidx]
    rfl
  · intro q hq
    simp only [addTask]
    exact pushAt_getElem?_other _ _ _ _ hq
  · intro q q' hq hq'
    have h1 := fresh_queue_length_bounds tp.work_queues_.length n keys.length keys rfl q hq
    have h2 := fresh_queue_length_bounds tp.work_queues_.length n keys.length keys rfl q' hq'
    omega

theorem addTask_round_robin_witness :
    0 < (TradeProcessor.new 3).work_queues_.length ∧
      (addTask 4 (TradeProcessor.new 3) "k").2.work_queues_ = [[], ["k"], []] ∧
      (addTasks 0 (TradeProcessor.new 3) ["a", "b", "c", "d"]).2.work_queues_
        = [["a", "d"], ["b"], ["c"]] ∧
      (addTask 4 (TradeProcessor.new 3) "k").1 = 5 ∧
      (addTasks 0 (TradeProcessor.new 3) ["a", "b", "c", "d"]).1 = 4 := by
  have h := addTask_round_robin 4 (TradeProcessor.new 3) "k" ["a", "b", "c", "d"] (by decide)
  exact ⟨by decide, by decide, by decide, h.2.1, h.1⟩

/-! ## The window of the cursor's trade -/

/-- C21: on a log with non-decreasing timestamps (whatever its analysis start
time, so also when that is the first trade's timestamp), for every index `i`
inside the log, the window computed for the timestamp of trade `i` contains
trade `i`: `start ≤ i < end`.  Hence that window is never empty and the loop
body of `processTrades` never takes its empty-window branch: it is the body
without that branch. -/
theorem window_contains_its_own_trade (config : DetectionConfig) (d : RugPullDetector)
    (hs : SortedByTime d.trades_) (i : Nat) (hi : i < d.trades_.length) :
    (windowBounds d d.trades_[i].timestamp).1 ≤ i ∧
      i < (windowBounds d d.trades_[i].timestamp).2 ∧
      d.trades_[i] ∈ getRecentTrades d d.trades_[i].timestamp ∧
      (getRecentTrades d d.trades_[i].timestamp).isEmpty = false ∧
      scanStep config d d.trades_[i] =
        if currentDrop d.peak_mc_ d.trades_[i].market_cap_sol ≥ config.stop_loss_threshold then
          some (buildResult true d.trades_[i].timestamp "stop_loss" none
            (currentDrop d.peak_mc_ d.trades_[i].market_cap_sol * 100) d.peak_mc_
            d.trades_[i].market_cap_sol)
        else if (getRecentTrades d d.trades_[i].timestamp).length > 1 then
          if durationSeconds (d.trades_[i].timestamp - d.peak_time_) ≥ 5 then
            if calculateConfidence (currentDrop d.peak_mc_ d.trades_[i].market_cap_sol)
                (durationSeconds (d.trades_[i].timestamp - d.peak_time_) : ℚ)
                (computeWindowStats (getRecentTrades d d.trades_[i].timestamp)).pattern_strength
                (computeWindowStats (getRecentTrades d d.trades_[i].timestamp)).volume_trend
                config ≥ config.min_confidence_score then
              some (buildResult true d.trades_[i].timestamp "pattern"
                (some (calculateConfidence (currentDrop d.peak_mc_ d.trades_[i].market_cap_sol)
                  (durationSeconds (d.trades_[i].timestamp - d.peak_time_) : ℚ)
                  (computeWindowStats
                    (getRecentTrades d d.trades_[i].timestamp)).pattern_strength
                  (computeWindowStats
                    (getRecentTrades d d.trades_[i].timestamp)).volume_trend config))
                (currentDrop d.peak_mc_ d.trades_[i].market_cap_sol * 100) d.peak_mc_
                d.trades_[i].market_cap_sol)
            else none
          else none
        else none := by
  obtain ⟨_, _, c3, c4⟩ := windowBounds_spec d d.trades_[i].timestamp hs
  have hts := timestampAt_eq d.trades_ i hi
  have hstart : (windowBounds d d.trades_[i].timestamp).1 ≤ i := by
    by_contra hcon
    have h1 := (c3 i hi).mp (by omega)
    have h2 := window_start_le d.analysis_start_time_ d.trades_[i].timestamp
    rw [hts] at h1
    omega
  have hend : i < (windowBounds d d.trades_[i].timestamp).2 :=
    (c4 i hstart hi).mpr (by rw [hts])
  exact ⟨hstart, hend, mem_getRecentTrades_self d hs i hi,
    getRecentTrades_self_not_empty d hs i hi,
    scanStep_of_window_not_empty config d _ (getRecentTrades_self_not_empty d hs i hi)⟩

theorem window_contains_its_own_trade_witness :
    SortedByTime sparseLog.trades_ ∧ 2 < sparseLog.trades_.length ∧
      windowBounds sparseLog (100 * ticksPerSecond) = (1, 3) ∧
      (getRecentTrades sparseLog (100 * ticksPerSecond)).isEmpty = false := by
  have h := window_contains_its_own_trade defaultConfig sparseLog (by decide!) 2 (by decide!)
  exact ⟨by decide!, by decide!, by decide!, h.2.2.2.1⟩

/-! ## When the pattern strength vanishes -/

theorem strengthBase_ge_ratio (cd : Int) (n : Nat) (vt pv : ℚ) (hcd : 0 ≤ cd) (hvt : 0 ≤ vt) :
    (cd : ℚ) / (n : ℚ) ≤ strengthBase cd n vt pv := by
  unfold strengthBase
  have h1 : (0 : ℚ) ≤ (cd : ℚ) / (n : ℚ) :=
    div_nonneg (by exact_mod_cast hcd) (Nat.cast_nonneg _)
  have h2 : (1 : ℚ) ≤ 1 + min vt 2 := by
    have : (0 : ℚ) ≤ min vt 2 := le_min hvt (by norm_num)
    linarith
  have h3 : (1 : ℚ) ≤ 1 + |pv| := by
    have := abs_nonneg pv
    linarith
  calc (cd : ℚ) / (n : ℚ) = (cd : ℚ) / (n : ℚ) * 1 * 1 := by ring
    _ ≤ (cd : ℚ) / (n : ℚ) * (1 + min vt 2) * 1 := by
        apply mul_le_mul_of_nonneg_right _ (by norm_num)
        exact mul_le_mul_of_nonneg_left h2 h1
    _ ≤ (cd : ℚ) / (n : ℚ) * (1 + min vt 2) * (1 + |pv|) := by
        apply mul_le_mul_of_nonneg_left h3
        exact mul_nonneg h1 (by linarith)

theorem strengthBase_eq_zero_iff (cd : Int) (n : Nat) (vt pv : ℚ) (hn : 0 < n)
    (hvt : 0 ≤ vt) : strengthBase cd n vt pv = 0 ↔ cd = 0 := by
  unfold strengthBase
  have hnq : (n : ℚ) ≠ 0 := by
    have : n ≠ 0 := by omega
    exact_mod_cast this
  have h2 : (1 : ℚ) + min vt 2 ≠ 0 := by
    have : (0 : ℚ) ≤ min vt 2 := le_min hvt (by norm_num)
    intro h; linarith
  have h3 : (1 : ℚ) + |pv| ≠ 0 := by
    have := abs_nonneg pv
    intro h; linarith
  constructor
  · intro h
    rcases mul_eq_zero.mp h with h | h
    · rcases mul_eq_zero.mp h with h | h
      · rcases div_eq_zero_iff.mp h with h | h
        · exact_mod_cast h
        · exact absurd h hnq
      · exact absurd h h2
    · exact absurd h h3
  · intro h
    rw [h]
    simp

theorem specConsecutiveDrops_eq_zero_iff (w : List Trade) :
    specConsecutiveDrops w = 0 ↔
      ∀ k, k < min 3 (w.length - 1) →
        ¬ (mcAt w (w.length - 1 - k) - mcAt w (w.length - 1 - k - 1) < 0) := by
  unfold specConsecutiveDrops
  simp only [List.length_eq_zero, List.filter_eq_nil_iff, List.mem_range, decide_eq_true_eq]

/-- C23: for a window of `n ≥ 2` trades, `pattern_strength` is 0 (its radicand
is 0) if and only if `consecutive_drops` is 0, that is when none of the last
`min 3 (n - 1)` price changes is negative; when `consecutive_drops ≥ 1` the
cube of `pattern_strength` is at least `consecutive_drops / n`, so with the
default threshold 0.457 the pattern indicator is set for every window of at
most 10 trades with at least one counted drop. -/
theorem pattern_strength_zero_iff_no_drops (w : List Trade) (hn : 2 ≤ w.length) :
    ((computeWindowStats w).pattern_strength.radicand = 0
        ↔ (computeWindowStats w).consecutive_drops = 0) ∧
      ((computeWindowStats w).consecutive_drops = 0 ↔
        ∀ k, k < min 3 (w.length - 1) →
          ¬ (mcAt w (w.length - 1 - k) - mcAt w (w.length - 1 - k - 1) < 0)) ∧
      (1 ≤ (computeWindowStats w).consecutive_drops →
        ((computeWindowStats w).consecutive_drops : ℚ) / (w.length : ℚ)
          ≤ (computeWindowStats w).pattern_strength.radicand) ∧
      (1 ≤ (computeWindowStats w).consecutive_drops → w.length ≤ 10 →
        (computeWindowStats w).pattern_strength.ge defaultConfig.pattern_strength_threshold
          = true) := by
  have hcd0 : (0 : Int) ≤ ((countRecentDrops (priceChanges w) : Nat) : Int) :=
    Int.natCast_nonneg _
  have hvt := meanOrZero_nonneg _ (volumeChanges_nonneg w)
  have hspec := countRecentDrops_eq_spec w
  rw [computeWindowStats_of_long w (by omega)]
  simp only
  have hratio := strengthBase_ge_ratio ((countRecentDrops (priceChanges w) : Nat) : Int)
    w.length (meanOrZero (volumeChanges w)) (meanOrZero (priceChanges w)) hcd0 hvt
  refine ⟨strengthBase_eq_zero_iff _ _ _ _ (by omega) hvt, ?_, fun _ => hratio, ?_⟩
  · rw [hspec, ← specConsecutiveDrops_eq_zero_iff]
    exact Int.natCast_eq_zero
  · intro hone hlen
    have hthr : defaultConfig.pattern_strength_threshold = 457 / 1000 := rfl
    have hnpos : (0 : ℚ) < (w.length : ℚ) := by
      have : 0 < w.length := by omega
      exact_mod_cast this
    have hn10 : (w.length : ℚ) ≤ 10 := by exact_mod_cast hlen
    have hc1 : (1 : ℚ) ≤ (((countRecentDrops (priceChanges w) : Nat) : Int) : ℚ) := by
      exact_mod_cast hone
    have hfrac : (1 : ℚ) / 10 ≤
        (((countRecentDrops (priceChanges w) : Nat) : Int) : ℚ) / (w.length : ℚ) := by
      rw [le_div_iff₀ hnpos]
      linarith
    simp only [CubeRoot.ge, hthr, decide_eq_true_eq]
    constructor
    · linarith
    · have : ((457 : ℚ) / 1000) ^ 3 ≤ 1 / 10 := by norm_num
      linarith

theorem pattern_strength_zero_iff_no_drops_witness :
    2 ≤ zigzagWindow.length ∧
      (computeWindowStats zigzagWindow).consecutive_drops = 2 ∧
      (computeWindowStats zigzagWindow).pattern_strength.radicand ≠ 0 ∧
      (2 : ℚ) / 4 ≤ (computeWindowStats zigzagWindow).pattern_strength.radicand ∧
      (computeWindowStats zigzagWindow).pattern_strength.ge defaultConfig.pattern_strength_threshold
        = true := by
  have h := pattern_strength_zero_iff_no_drops zigzagWindow (by decide)
  have hcd : (computeWindowStats zigzagWindow).consecutive_drops = 2 := by decide!
  refine ⟨by decide, hcd, ?_, ?_, h.2.2.2 (by decide!) (by decide)⟩
  · intro h0
    have := h.1.mp h0
    rw [hcd] at this
    cases this
  · have := h.2.2.1 (by decide!)
    rw [hcd] at this
    exact le_trans (by decide!) this

/-! ## Task selection of a worker -/

theorem popAt_length (qs : List (List String)) (i : Nat) :
    (popAt qs i).length = qs.length := by
  induction qs generalizing i with
  | nil => rfl
  | cons q qs ih =>
    cases i with
    | zero => rfl
    | succ i => simp [popAt, ih]

theorem popAt_getElem?_self (qs : List (List String)) (i : Nat) :
    (popAt qs i)[i]? = (qs[i]?).map List.tail := by
  induction qs generalizing i with
  | nil => simp [popAt]
  | cons q qs ih =>
    cases i with
    | zero => simp [popAt]
    | succ i => simpa [popAt] using ih i

theorem popAt_getElem?_other (qs : List (List String)) (i j : Nat) (hne : j ≠ i) :
    (popAt qs i)[j]? = qs[j]? := by
  induction qs generalizing i j with
  | nil => simp [popAt]
  | cons q qs ih =>
    cases i with
    | zero =>
      cases j with
      | zero => exact absurd rfl hne
      | succ j => simp [popAt]
    | succ i =>
      cases j with
      | zero => simp [popAt]
      | succ j =>
        have : j ≠ i := fun h => hne (by rw [h])
        simpa [popAt] using ih i j this

theorem takeFrom_of_cons (tp : TradeProcessor) (i : Nat) (task : String) (rest : List String)
    (h : tp.work_queues_[i]? = some (task :: rest)) :
    takeFrom tp i = some (task, { tp with work_queues_ := popAt tp.work_queues_ i }) := by
  unfold takeFrom
  rw [h]

theorem takeFrom_of_nil (tp : TradeProcessor) (i : Nat) (h : tp.work_queues_[i]? = some []) :
    takeFrom tp i = none := by
  unfold takeFrom
  rw [h]

theorem takeFrom_some_cases (tp : TradeProcessor) (i : Nat) (task : String)
    (tp1 : TradeProcessor) (h : takeFrom tp i = some (task, tp1)) :
    ∃ rest, tp.work_queues_[i]? = some (task :: rest) ∧
      tp1 = { tp with work_queues_ := popAt tp.work_queues_ i } := by
  unfold takeFrom at h
  cases hq : tp.work_queues_[i]? with
  | none => rw [hq] at h; cases h
  | some q =>
    cases q with
    | nil => rw [hq] at h; cases h
    | cons a rest =>
      rw [hq] at h
      simp only [Option.some.injEq, Prod.mk.injEq] at h
      exact ⟨rest, by rw [h.1], h.2.symm⟩

theorem takeFrom_none_cases (tp : TradeProcessor) (i : Nat) (hi : i < tp.work_queues_.length)
    (h : takeFrom tp i = none) : tp.work_queues_[i]? = some [] := by
  unfold takeFrom at h
  rw [List.getElem?_eq_getElem hi] at h ⊢
  cases hq : tp.work_queues_[i] with
  | nil => rfl
  | cons a rest => rw [hq] at h; cases h

theorem stealLoop_none_iff (tp : TradeProcessor) (w : Nat) :
    ∀ (fuel i : Nat), tp.work_queues_.length - i ≤ fuel →
      (stealLoop tp w fuel i = none ↔
        ∀ k, i ≤ k → k < tp.work_queues_.length → k ≠ w → tp.work_queues_[k]? = some []) := by
  intro fuel
  induction fuel with
  | zero =>
    intro i hfuel
    simp only [stealLoop, true_iff]
    intro k h1 h2 _
    omega
  | succ fuel ih =>
    intro i hfuel
    simp only [stealLoop]
    by_cases hi : i < tp.work_queues_.length
    · rw [if_pos hi]
      have hrec := ih (i + 1) (by omega)
      by_cases hw : i = w
      · rw [if_pos hw, hrec]
        constructor
        · intro h k h1 h2 h3
          exact h k (by omega) h2 h3
        · intro h k h1 h2 h3
          exact h k (by omega) h2 h3
      · rw [if_neg hw]
        cases htake : takeFrom tp i with
        | none =>
          simp only
          rw [hrec]
          have hempty := takeFrom_none_cases tp i hi htake
          constructor
          · intro h k h1 h2 h3
            rcases Nat.eq_or_lt_of_le h1 with rfl | hlt
            · exact hempty
            · exact h k (by omega) h2 h3
          · intro h k h1 h2 h3
            exact h k (by omega) h2 h3
        | some found =>
          simp only
          constructor
          · intro h; cases h
          · intro h
            exfalso
            obtain ⟨rest, hq, _⟩ := takeFrom_some_cases tp i found.1 found.2 htake
            rw [h i (le_refl _) hi hw] at hq
            cases hq
    · rw [if_neg hi]
      simp only [true_iff]
      intro k h1 h2 _
      omega

theorem stealLoop_some_cases (tp : TradeProcessor) (w : Nat) :
    ∀ (fuel i : Nat) (task : String) (tp1 : TradeProcessor),
      stealLoop tp w fuel i = some (task, tp1) →
      ∃ (j : Nat) (rest : List String), i ≤ j ∧ j < tp.work_queues_.length ∧ j ≠ w ∧
        tp.work_queues_[j]? = some (task :: rest) ∧
        tp1 = { tp with work_queues_ := popAt tp.work_queues_ j } ∧
        ∀ k, i ≤ k → k < j → k ≠ w → tp.work_queues_[k]? = some [] := by
  intro fuel
  induction fuel with
  | zero => intro i task tp1 h; simp [stealLoop] at h
  | succ fuel ih =>
    intro i task tp1 h
    simp only [stealLoop] at h
    by_cases hi : i < tp.work_queues_.length
    · rw [if_pos hi] at h
      by_cases hw : i = w
      · rw [if_pos hw] at h
        obtain ⟨j, rest, h1, h2, h3, h4, h5, h6⟩ := ih (i + 1) task tp1 h
        exact ⟨j, rest, by omega, h2, h3, h4, h5, fun k hk1 hk2 hk3 =>
          h6 k (by omega) hk2 hk3⟩
      · rw [if_neg hw] at h
        cases htake : takeFrom tp i with
        | none =>
          rw [htake] at h
          simp only at h
          have hempty := takeFrom_none_cases tp i hi htake
          obtain ⟨j, rest, h1, h2, h3, h4, h5, h6⟩ := ih (i + 1) task tp1 h
          refine ⟨j, rest, by omega, h2, h3, h4, h5, ?_⟩
          intro k hk1 hk2 hk3
          rcases Nat.eq_or_lt_of_le hk1 with rfl | hlt
          · exact hempty
          · exact h6 k (by omega) hk2 hk3
        | some found =>
          rw [htake] at h
          simp only [Option.some.injEq] at h
          rw [h] at htake
          obtain ⟨rest, hq, htp⟩ := takeFrom_some_cases tp i task tp1 htake
          exact ⟨i, rest, le_refl _, hi, hw, hq, htp, fun k hk1 hk2 _ => by omega⟩
    · rw [if_neg hi] at h
      cases h

theorem all_nil_iff_getElem? (qs : List (List String)) :
    (∀ q ∈ qs, q = []) ↔ ∀ k, k < qs.length → qs[k]? = some [] := by
  constructor
  · intro h k hk
    rw [List.getElem?_eq_getElem hk, h _ (List.getElem_mem hk)]
  · intro h q hq
    obtain ⟨k, hk, rfl⟩ := List.mem_iff_getElem.mp hq
    have := h k hk
    rw [List.getElem?_eq_getElem hk] at this
    exact Option.some.inj this

theorem selectTask_none_iff (tp : TradeProcessor) (w : Nat)
    (hw : w < tp.work_queues_.length) :
    selectTask tp w = none ↔ ∀ q ∈ tp.work_queues_, q = [] := by
  rw [all_nil_iff_getElem?]
  unfold selectTask
  cases htake : takeFrom tp w with
  | none =>
    simp only
    rw [stealLoop_none_iff tp w _ 0 (by omega)]
    have hown := takeFrom_none_cases tp w hw htake
    constructor
    · intro h k hk
      by_cases hkw : k = w
      · rw [hkw]; exact hown
      · exact h k (Nat.zero_le _) hk hkw
    · intro h k _ hk _
      exact h k hk
  | some found =>
    simp only
    constructor
    · intro h; cases h
    · intro h
      exfalso
      obtain ⟨rest, hq, _⟩ := takeFrom_some_cases tp w found.1 found.2 htake
      rw [h w hw] at hq
      cases hq

theorem selectTask_some_cases (tp : TradeProcessor) (w : Nat) (task : String)
    (tp1 : TradeProcessor) (h : selectTask tp w = some (task, tp1)) :
    ∃ (j : Nat) (rest : List String), tp.work_queues_[j]? = some (task :: rest) ∧
      tp1 = { tp with work_queues_ := popAt tp.work_queues_ j } ∧
      (j = w ∨ (tp.work_queues_[w]? ≠ none → tp.work_queues_[w]? = some []) ∧ j ≠ w ∧
        ∀ k, k < j → k ≠ w → tp.work_queues_[k]? = some []) := by
  unfold selectTask at h
  cases htake : takeFrom tp w with
  | none =>
    rw [htake] at h
    simp only at h
    obtain ⟨j, rest, _, _, h3, h4, h5, h6⟩ := stealLoop_some_cases tp w _ 0 task tp1 h
    refine ⟨j, rest, h4, h5, Or.inr ⟨?_, h3, fun k hk hkw => h6 k (Nat.zero_le _) hk hkw⟩⟩
    intro hne
    have hwlt : w < tp.work_queues_.length := by
      by_contra hcon
      exact hne (List.getElem?_eq_none (not_lt.mp hcon))
    exact takeFrom_none_cases tp w hwlt htake
  | some found =>
    rw [htake] at h
    simp only [Option.some.injEq] at h
    rw [h] at htake
    obtain ⟨rest, hq, htp⟩ := takeFrom_some_cases tp w task tp1 htake
    exact ⟨w, rest, hq, htp, Or.inl rfl⟩

theorem selectTask_steals_lowest (tp : TradeProcessor) (w : Nat)
    (hown : tp.work_queues_[w]? = some []) (j : Nat) (task : String) (rest : List String)
    (hjw : j ≠ w) (hq : tp.work_queues_[j]? = some (task :: rest))
    (hlow : ∀ k, k < j → k ≠ w → tp.work_queues_[k]? = some []) :
    selectTask tp w = some (task, { tp with work_queues_ := popAt tp.work_queues_ j }) := by
  have hjlt : j < tp.work_queues_.length := by
    by_contra hcon
    rw [List.getElem?_eq_none (not_lt.mp hcon)] at hq
    cases hq
  unfold selectTask
  rw [takeFrom_of_nil tp w hown]
  simp only
  cases hs : stealLoop tp w tp.work_queues_.length 0 with
  | none =>
    exfalso
    have := (stealLoop_none_iff tp w _ 0 (by omega)).mp hs j (Nat.zero_le _) hjlt hjw
    rw [this] at hq
    cases hq
  | some found =>
    obtain ⟨j1, rest1, _, _, h3, h4, h5, h6⟩ :=
      stealLoop_some_cases tp w _ 0 found.1 found.2 hs
    have hj : j1 = j := by
      rcases Nat.lt_trichotomy j1 j with hlt | heq | hgt
      · have := hlow j1 hlt h3
        rw [this] at h4
        cases h4
      · exact heq
      · have := h6 j (Nat.zero_le _) hgt hjw
        rw [this] at hq
        cases hq
    subst hj
    rw [hq] at h4
    have htask : task = found.1 := by
      have := Option.some.inj h4
      exact (List.cons.inj this).1
    have hfound : found = (task, { tp with work_queues_ := popAt tp.work_queues_ j1 }) := by
      rw [htask, ← h5]
    rw [hfound]

theorem allQueuesEmpty_iff (tp : TradeProcessor) :
    allQueuesEmpty tp = true ↔ ∀ q ∈ tp.work_queues_, q = [] := by
  unfold allQueuesEmpty
  simp only [List.all_eq_true, List.isEmpty_iff]

theorem workerIteration_terminate_iff (tp : TradeProcessor) (w : Nat) :
    (workerIteration tp w).1 = WorkerStep.terminate ↔
      selectTask tp w = none ∧ tp.should_stop_ = true ∧ allQueuesEmpty tp = true := by
  unfold workerIteration
  cases hs : selectTask tp w with
  | some found =>
    simp only
    constructor
    · intro h; cases h
    · rintro ⟨h, _⟩; cases h
  | none =>
    simp only
    by_cases hstop : (tp.should_stop_ && allQueuesEmpty tp) = true
    · rw [if_pos hstop]
      have := Bool.and_eq_true_iff.mp hstop
      exact ⟨fun _ => ⟨trivial, this.1, this.2⟩, fun _ => rfl⟩
    · rw [if_neg hstop]
      constructor
      · intro h; cases h
      · rintro ⟨_, h1, h2⟩
        exact absurd (by rw [h1, h2]; rfl) hstop

/-- C22: one task-selection step of worker `w` of a pool (`w` a queue index),
run without interference: it takes the front key of `w`'s own queue when that
queue is non-empty; otherwise it takes the front key of the lowest-indexed
non-empty queue other than `w`; it finds no task if and only if every queue is
empty.  A successful step removes exactly that key: the queue it came from
keeps its remaining keys in order, every other queue, the number of queues and
the stop flag are unchanged.  The worker exits exactly when it found no task,
the stop flag is set and all queues are empty. -/
theorem worker_task_selection (tp : TradeProcessor) (w : Nat)
    (hw : w < tp.work_queues_.length) :
    (∀ task rest, tp.work_queues_[w]? = some (task :: rest) →
      selectTask tp w = some (task, { tp with work_queues_ := popAt tp.work_queues_ w })) ∧
    (tp.work_queues_[w]? = some [] →
      ∀ j task rest, j ≠ w → tp.work_queues_[j]? = some (task :: rest) →
        (∀ k, k < j → k ≠ w → tp.work_queues_[k]? = some []) →
        selectTask tp w = some (task, { tp with work_queues_ := popAt tp.work_queues_ j })) ∧
    (selectTask tp w = none ↔ ∀ q ∈ tp.work_queues_, q = []) ∧
    (∀ task tp1, selectTask tp w = some (task, tp1) →
      ∃ (j : Nat) (rest : List String), tp.work_queues_[j]? = some (task :: rest) ∧
        tp1.work_queues_[j]? = some rest ∧
        (∀ q, q ≠ j → tp1.work_queues_[q]? = tp.work_queues_[q]?) ∧
        tp1.work_queues_.length = tp.work_queues_.length ∧
        tp1.should_stop_ = tp.should_stop_) ∧
    ((workerIteration tp w).1 = WorkerStep.terminate ↔
      selectTask tp w = none ∧ tp.should_stop_ = true ∧ ∀ q ∈ tp.work_queues_, q = []) ∧
    (∀ task, (workerIteration tp w).1 = WorkerStep.process task ↔
      ∃ tp1, selectTask tp w = some (task, tp1) ∧ (workerIteration tp w).2 = tp1) := by
  refine ⟨?_, ?_, selectTask_none_iff tp w hw, ?_, ?_, ?_⟩
  · intro task rest hq
    unfold selectTask
    rw [takeFrom_of_cons tp w task rest hq]
  · intro hown j task rest hjw hq hlow
    exact selectTask_steals_lowest tp w hown j task rest hjw hq hlow
  · intro task tp1 hsel
    obtain ⟨j, rest, hq, htp, _⟩ := selectTask_some_cases tp w task tp1 hsel
    refine ⟨j, rest, hq, ?_, ?_, ?_, ?_⟩
    · rw [htp]
      simp only
      rw [popAt_getElem?_self, hq]
      rfl
    · intro q hqj
      rw [htp]
      exact popAt_getElem?_other _ _ _ hqj
    · rw [htp]
      exact popAt_length _ _
    · rw [htp]
  · rw [workerIteration_terminate_iff, allQueuesEmpty_iff]
  · intro task
    unfold workerIteration
    cases hs : selectTask tp w with
    | some found =>
      simp only
      constructor
      · intro h
        injection h with h1
        exact ⟨found.2, by rw [← h1], rfl⟩
      · rintro ⟨tp1, h1, _⟩
        have := Option.some.inj h1
        rw [this]
    | none =>
      simp only
      constructor
      · intro h
        split_ifs at h
      · rintro ⟨tp1, h1, _⟩
        cases h1

theorem worker_task_selection_witness :
    1 < busyPool.work_queues_.length ∧ 0 < busyPool.work_queues_.length ∧
      selectTask busyPool 1 = some ("x", { work_queues_ := [[], ["y"], ["z"]], should_stop_ := true }) ∧
      selectTask busyPool 0 = some ("x", { work_queues_ := [[], ["y"], ["z"]], should_stop_ := true }) ∧
      (workerIteration (TradeProcessor.new 2) 0).1 = WorkerStep.wait ∧
      (workerIteration { work_queues_ := [[], []], should_stop_ := true } 0).1
        = WorkerStep.terminate := by
  have h1 := (worker_task_selection busyPool 1 (by decide)).1 "x" ["y"] (by decide)
  have h0 := (worker_task_selection busyPool 0 (by decide)).2.1 (by decide) 1 "x" ["y"]
    (by decide) (by decide) (fun k hk hk0 => by omega)
  exact ⟨by decide, by decide, h1.trans (by decide), h0.trans (by decide), by decide,
    by decide⟩

end RugPull
